import Mathlib

/-!
Verification development for the miniconf settings library.

The development shallowly embeds the two subsystems of the library:

* the path-tree engine (`src/array.rs` together with the leaf / record /
  atomic adapters that the derive layer generates), and
* the MQTT settings session (`src/mqtt_client/mqtt_client.rs`).

Rust byte strings are modelled as `List Char` (the modelled subset is
ASCII, where byte length and character count coincide).  A fixed-size
array `[T; N]` is modelled as a size together with a single element
tree: the Rust type system forces all `N` elements to share one
structure, and none of the verified properties depends on elements
holding distinct values, so the model keeps arrays homogeneous.
-/

namespace Miniconf

abbrev Chars := List Char

/-- Error kinds of the path-tree engine.  The enum itself lives in the
crate root (not shipped under `src/`); the constructors are the
taxonomy of spec section 7. -/
inductive Error where
  | PathTooShort
  | PathTooLong
  | BadIndex
  | MissingField
  | DecodeError
  | BufferTooSmall
deriving DecidableEq

/-- Metadata record returned by `get_metadata` (`MiniconfMetadata`). -/
structure MiniconfMetadata where
  max_topic_size : Nat
  max_depth : Nat
deriving DecidableEq

mutual
/-- Settings trees.  `leaf`/`atomic` carry the serialized form of their
value; `array n c` is the homogeneous model of `[T; N]`; `record` is a
named-field struct. -/
inductive Node where
  | leaf (val : Chars) : Node
  | atomic (val : Chars) : Node
  | array (n : Nat) (c : Node) : Node
  | record (fs : Fields) : Node

inductive Fields where
  | fnil : Fields
  | fcons (name : Chars) (c : Node) (rest : Fields) : Fields
end

/-- Digit-count loop of `get_metadata` in `src/array.rs` lines 54-60:
`while index > 0 { index /= 10; num_digits += 1 }`.  Note that the loop
yields `0` for input `0` (reached for `[T; 1]`, where `index = N - 1 = 0`). -/
def num_digits : Nat → Nat
  | 0 => 0
  | n + 1 => num_digits ((n + 1) / 10) + 1
decreasing_by exact Nat.div_lt_self (Nat.succ_pos n) (by omega)

/-- Decimal digit character. -/
def digCh (d : Nat) : Char := Char.ofNat (48 + d)

/-- Decimal rendering of a natural number, as produced by
`write!(topic, "{}", index)`. -/
def decRep (n : Nat) : Chars :=
  if h : n < 10 then [digCh n] else decRep (n / 10) ++ [digCh (n % 10)]
decreasing_by exact Nat.div_lt_self (by omega) (by omega)

mutual
/-- `get_metadata`.  The `array` arm is translated from
`src/array.rs` lines 52-78; leaves and atomic subtrees report `(0, 1)`
and records aggregate per spec section 4.1 (the record adapter is
derive-generated and not shipped under `src/`). -/
def Node.get_metadata : Node → MiniconfMetadata
  | .leaf _ => ⟨0, 1⟩
  | .atomic _ => ⟨0, 1⟩
  | .array n c =>
      let nd := num_digits (n - 1)
      let m := c.get_metadata
      if m.max_topic_size > 0 then
        ⟨m.max_topic_size + nd + 1, m.max_depth + 1⟩
      else
        ⟨nd, m.max_depth + 1⟩
  | .record fs =>
      let m := fs.metaFold
      ⟨m.max_topic_size, m.max_depth + 1⟩

/-- Maximum over the fields of a record of the per-field topic size and
child depth (spec section 4.1, record case). -/
def Fields.metaFold : Fields → MiniconfMetadata
  | .fnil => ⟨0, 0⟩
  | .fcons name c rest =>
      let m := c.get_metadata
      let r := rest.metaFold
      let sz := name.length + (if m.max_topic_size > 0 then 1 else 0) + m.max_topic_size
      ⟨max sz r.max_topic_size, max m.max_depth r.max_depth⟩
end

/-- Concatenation of the lists produced by `f` over a list, used to
spell out enumeration orders. -/
def cmap (f : α → List β) : List α → List β
  | [] => []
  | x :: xs => f x ++ cmap f xs

mutual
/-- The list of leaf paths of a tree in depth-first preorder, each path
given as its list of segments.  This is the reference order against
which the cursor-driven enumerator (`recurse_paths`) is verified. -/
def Node.pathsN : Node → List (List Chars)
  | .leaf _ => [[]]
  | .atomic _ => [[]]
  | .array n c =>
      let ps := c.pathsN
      cmap (fun j => ps.map (fun q => decRep j :: q)) (List.range' 0 n)
  | .record fs => fs.pathsF

/-- Preorder leaf paths contributed by a record's fields, in declared
order. -/
def Fields.pathsF : Fields → List (List Chars)
  | .fnil => []
  | .fcons name c rest => (c.pathsN.map (fun q => name :: q)) ++ rest.pathsF
end

/-- Byte length of the topic string a segment list renders to
(segments joined by a single `/`). -/
def pathLen : List Chars → Nat
  | [] => 0
  | [s] => s.length
  | s :: r => s.length + 1 + pathLen r

/-- Topic string a segment list renders to. -/
def pathChars : List Chars → Chars
  | [] => []
  | [s] => s
  | s :: r => s ++ '/' :: pathChars r

/-- Largest rendered length in a list of paths. -/
def maxLen (ps : List (List Chars)) : Nat := (ps.map pathLen).foldr max 0

/-- Length of the longest rendered leaf path of a tree. -/
def pathMax (t : Node) : Nat := maxLen t.pathsN

/-- Length of the longest rendered leaf path contributed by fields. -/
def pathMaxF (fs : Fields) : Nat := maxLen fs.pathsF

def Fields.nameList : Fields → List Chars
  | .fnil => []
  | .fcons name _ rest => name :: rest.nameList

mutual
/-- Trees expressible as a Rust `Miniconf` type: arrays are nonempty
(`[T; 0]` would already make `get_metadata` index out of bounds),
records have at least one field, and field names are nonempty,
slash-free and distinct within each record. -/
def Node.wfB : Node → Bool
  | .leaf _ => true
  | .atomic _ => true
  | .array n c => decide (1 ≤ n) && c.wfB
  | .record fs =>
      (match fs with
        | .fnil => false
        | .fcons _ _ _ => true) && fs.wfB

def Fields.wfB : Fields → Bool
  | .fnil => true
  | .fcons name c rest =>
      (!name.isEmpty) && (!name.contains '/') && (!(rest.nameList.contains name))
        && c.wfB && rest.wfB
end

mutual
/-- Every array node of the tree has at least `k` elements. -/
def Node.arrMin (k : Nat) : Node → Bool
  | .leaf _ => true
  | .atomic _ => true
  | .array n c => decide (k ≤ n) && c.arrMin k
  | .record fs => fs.arrMinF k

def Fields.arrMinF (k : Nat) : Fields → Bool
  | .fnil => true
  | .fcons _ c rest => c.arrMin k && rest.arrMinF k
end

mutual
/-- Every leaf or atomic value's serialized form fits in `sz` bytes. -/
def Node.valsFit (sz : Nat) : Node → Bool
  | .leaf v => decide (v.length ≤ sz)
  | .atomic v => decide (v.length ≤ sz)
  | .array _ c => c.valsFit sz
  | .record fs => fs.valsFitF sz

def Fields.valsFitF (sz : Nat) : Fields → Bool
  | .fnil => true
  | .fcons _ c rest => c.valsFit sz && rest.valsFitF sz
end

/-- A `heapless::String<CAP>` topic buffer: a byte capacity and the
current contents. -/
structure BString where
  cap : Nat
  data : Chars
deriving DecidableEq

/-- Append a string to the buffer; `none` models the `Err` that
`push`/`write!` return when the contents would exceed the capacity. -/
def BString.pushList (b : BString) (s : Chars) : Option BString :=
  if b.data.length + s.length ≤ b.cap then some ⟨b.cap, b.data ++ s⟩ else none

/-- `String::truncate`. -/
def BString.trunc (b : BString) (n : Nat) : BString := ⟨b.cap, b.data.take n⟩

/-- Capacity a topic buffer must have so that a subtree with longest
path `m` can extend it: nothing when the subtree renders only the empty
path, else a separator (when the buffer is nonempty) plus `m`. -/
def roomFor (m : Nat) (b : BString) : Prop :=
  b.data.length + (if m = 0 then 0 else (if b.data = [] then 0 else 1) + m) ≤ b.cap

/-- Outcome of one `recurse_paths` call: `Some(())` with the mutated
cursor and topic, `None` with the mutated cursor and restored topic, or
a reached `unreachable!` branch (a Rust panic). -/
inductive StepResult where
  | yielded (cursor : List Nat) (topic : BString) : StepResult
  | exhausted (cursor : List Nat) (topic : BString) : StepResult
  | panicked (msg : String) : StepResult
deriving DecidableEq

/-- Drop the first `k` fields of a record. -/
def Fields.drop : Fields → Nat → Fields
  | fs, 0 => fs
  | .fnil, _ + 1 => .fnil
  | .fcons _ _ rest, k + 1 => rest.drop k

theorem Fields.sizeOf_drop_le : (fs : Fields) → (k : Nat) → sizeOf (fs.drop k) ≤ sizeOf fs
  | _, 0 => by simp [Fields.drop]
  | .fnil, _ + 1 => by simp [Fields.drop]
  | .fcons name c rest, k + 1 => by
      simp only [Fields.drop]
      have := Fields.sizeOf_drop_le rest k
      simp only [Fields.fcons.sizeOf_spec]
      omega

mutual
/-- `recurse_paths` (`src/array.rs` lines 80-128 for the `array` arm).
The leaf/atomic arm marks the single leaf visited through the cursor
head; the record arm is the derive-generated field loop (spec section
4.1's `enumerate`), which walks the declared fields from the cursor
head's position exactly as the array loop walks indices. -/
def Node.recursePaths : Node → List Nat → BString → StepResult
  | .leaf _, cursor, topic =>
      match cursor with
      | [] => .panicked "Index stack too small"
      | i :: rest => if i = 0 then .yielded (1 :: rest) topic else .exhausted (i :: rest) topic
  | .atomic _, cursor, topic =>
      match cursor with
      | [] => .panicked "Index stack too small"
      | i :: rest => if i = 0 then .yielded (1 :: rest) topic else .exhausted (i :: rest) topic
  | .array n c, cursor, topic =>
      match cursor with
      | [] => .panicked "Index stack too small"
      | i :: rest => recurseArr n c (n - i) i rest topic topic.data.length
  | .record fs, cursor, topic =>
      match cursor with
      | [] => .panicked "Index stack too small"
      | i :: rest => recurseFlds (fs.drop i) i rest topic topic.data.length
termination_by t _ _ => (sizeOf t, 0)
decreasing_by
  · apply Prod.Lex.left
    simp only [Node.array.sizeOf_spec]
    omega
  · apply Prod.Lex.left
    have := Fields.sizeOf_drop_le fs i
    simp only [Node.record.sizeOf_spec]
    omega

/-- The `while index[0] < N` loop of the array's `recurse_paths`.  The
fuel argument is `N - index[0]`, the exact number of remaining loop
iterations, so the `0`-fuel arm coincides with the loop's exit test. -/
def recurseArr (n : Nat) (c : Node) : Nat → Nat → List Nat → BString → Nat → StepResult
  | 0, i, rest, topic, _ => .exhausted (i :: rest) topic
  | fuel + 1, i, rest, topic, origLen =>
      if i < n then
        match (if topic.data.length > 0 then topic.pushList ['/'] else some topic) with
        | none => .panicked "Topic buffer too short"
        | some t1 =>
            match t1.pushList (decRep i) with
            | none => .panicked "Topic buffer too short"
            | some t2 =>
                match c.recursePaths rest t2 with
                | .yielded c2 t3 => .yielded (i :: c2) t3
                | .panicked m => .panicked m
                | .exhausted c2 t3 =>
                    recurseArr n c fuel (i + 1) (c2.map fun _ => 0) (t3.trunc origLen) origLen
      else .exhausted (i :: rest) topic
termination_by fuel _ _ _ _ => (sizeOf c, fuel + 1)
decreasing_by
  · apply Prod.Lex.right
    omega
  · apply Prod.Lex.right
    omega

/-- The field loop of the derive-generated record `recurse_paths`:
`fs` is the suffix of declared fields starting at the cursor head. -/
def recurseFlds : Fields → Nat → List Nat → BString → Nat → StepResult
  | .fnil, i, rest, topic, _ => .exhausted (i :: rest) topic
  | .fcons name c fsr, i, rest, topic, origLen =>
      match (if topic.data.length > 0 then topic.pushList ['/'] else some topic) with
      | none => .panicked "Topic buffer too short"
      | some t1 =>
          match t1.pushList name with
          | none => .panicked "Topic buffer too short"
          | some t2 =>
              match c.recursePaths rest t2 with
              | .yielded c2 t3 => .yielded (i :: c2) t3
              | .panicked m => .panicked m
              | .exhausted c2 t3 =>
                  recurseFlds fsr (i + 1) (c2.map fun _ => 0) (t3.trunc origLen) origLen
termination_by fs _ _ _ _ => (sizeOf fs, 1)
decreasing_by
  · apply Prod.Lex.left
    simp only [Fields.fcons.sizeOf_spec]
    omega
  · apply Prod.Lex.left
    simp only [Fields.fcons.sizeOf_spec]
    omega
end

mutual
/-- Specification of a cursor state: the list of leaf paths that the
enumerator will still yield from this state, in order.  A fresh
(all-zero) cursor maps to the full preorder path list. -/
def Node.emitN : Node → List Nat → List (List Chars)
  | .leaf _, cursor =>
      match cursor with
      | [] => []
      | i :: _ => if i = 0 then [[]] else []
  | .atomic _, cursor =>
      match cursor with
      | [] => []
      | i :: _ => if i = 0 then [[]] else []
  | .array n c, cursor =>
      match cursor with
      | [] => []
      | i :: rest =>
          let ps := c.pathsN
          (if i < n then (c.emitN rest).map (fun q => decRep i :: q) else []) ++
            cmap (fun j => ps.map (fun q => decRep j :: q)) (List.range' (i + 1) (n - (i + 1)))
  | .record fs, cursor =>
      match cursor with
      | [] => []
      | i :: rest => emitRec (fs.drop i) rest
termination_by t _ => (sizeOf t, 0)
decreasing_by
  · apply Prod.Lex.left
    simp only [Node.array.sizeOf_spec]
    omega
  · apply Prod.Lex.left
    have := Fields.sizeOf_drop_le fs i
    simp only [Node.record.sizeOf_spec]
    omega

/-- Remaining paths of a record whose field loop stands at the first
field of `fs`: the current field continues from the cursor tail, the
later fields are enumerated in full. -/
def emitRec : Fields → List Nat → List (List Chars)
  | .fnil, _ => []
  | .fcons name c fsr, rest => (c.emitN rest).map (fun q => name :: q) ++ fsr.pathsF
termination_by fs _ => (sizeOf fs, 1)
decreasing_by
  apply Prod.Lex.left
  simp only [Fields.fcons.sizeOf_spec]
  omega
end

/-- One pass of the settings path iterator (`MiniconfIter`, crate root,
not shipped under `src/`).  Modelled from the spec, section 4.3: each
`next()` call runs `recurse_paths` once over the caller's cursor with a
fresh empty topic buffer of capacity `cap` and yields the buffer's
contents.  Returns `none` if an `unreachable!` branch is reached or the
fuel is insufficient. -/
def drainPaths : Nat → Node → List Nat → Nat → Option (List Chars × List Nat)
  | 0, _, _, _ => none
  | fuel + 1, t, cursor, cap =>
      match t.recursePaths cursor ⟨cap, []⟩ with
      | .panicked _ => none
      | .exhausted c2 _ => some ([], c2)
      | .yielded c2 b =>
          match drainPaths fuel t c2 cap with
          | some (rest, cf) => some (b.data :: rest, cf)
          | none => none

/-- Modelled from the spec: the decimal index parse that `string_set` /
`string_get` in `src/array.rs` delegate to (`serde_json_core::from_str`
for `usize`, an external dependency).  Spec section 4.2: "Arrays parse
the segment as a decimal integer.  Negative signs, whitespace, and
non-digit characters reject."  The segment parses iff it is a nonempty
string of decimal digits; the value is its base-ten reading. -/
def parseIndex (s : Chars) : Option Nat :=
  if s ≠ [] ∧ s.all (·.isDigit) then
    some (s.foldl (fun a c => a * 10 + (c.toNat - 48)) 0)
  else none

/-- Splitting of a path on `/` as done by Rust's `str::split('/')`:
the empty string yields one empty segment. -/
def splitSlash : Chars → List Chars
  | [] => [[]]
  | c :: rest =>
      if c = '/' then [] :: splitSlash rest
      else
        match splitSlash rest with
        | s :: ss => (c :: s) :: ss
        | [] => [[c]]

mutual
/-- `string_set`.  The `array` arm is `src/array.rs` lines 6-28.  The
leaf/atomic arms and the record field dispatch are the derive-generated
adapters (spec sections 4.1 and 4.2): a leaf rejects residual path with
`PathTooLong` and otherwise decodes the whole payload via the codec
`dec` (external; `none` models a decode failure); a record dispatches
on exact equality with a declared field name, else `MissingField`.
Mutation is modelled by returning the updated tree. -/
def Node.string_set (dec : Chars → Option Chars) : Node → List Chars → Chars → Except Error Node
  | .leaf _, segs, v =>
      if segs ≠ [] then .error .PathTooLong
      else
        match dec v with
        | some nv => .ok (.leaf nv)
        | none => .error .DecodeError
  | .atomic _, segs, v =>
      if segs ≠ [] then .error .PathTooLong
      else
        match dec v with
        | some nv => .ok (.atomic nv)
        | none => .error .DecodeError
  | .array n c, segs, v =>
      match segs with
      | [] => .error .PathTooShort
      | s :: rest =>
          match parseIndex s with
          | none => .error .BadIndex
          | some i =>
              if i ≥ n then .error .BadIndex
              else (c.string_set dec rest v).map (fun c2 => .array n c2)
  | .record fs, segs, v =>
      match segs with
      | [] => .error .PathTooShort
      | s :: rest => (Fields.setIn dec fs s rest v).map .record

def Fields.setIn (dec : Chars → Option Chars) :
    Fields → Chars → List Chars → Chars → Except Error Fields
  | .fnil, _, _, _ => .error .MissingField
  | .fcons name c restF, s, segs, v =>
      if s = name then (c.string_set dec segs v).map (fun c2 => .fcons name c2 restF)
      else (Fields.setIn dec restF s segs v).map (fun f2 => .fcons name c f2)
end

mutual
/-- `string_get`.  The `array` arm is `src/array.rs` lines 30-50; the
leaf/atomic arms serialize the value into the caller's buffer of
`bufSize` bytes, failing with `BufferTooSmall` when it does not fit
(spec section 4.1); the record arm is the derive-generated dispatch.
The model returns the written bytes instead of a byte count. -/
def Node.string_get (bufSize : Nat) : Node → List Chars → Except Error Chars
  | .leaf v, segs =>
      if segs ≠ [] then .error .PathTooLong
      else if v.length ≤ bufSize then .ok v else .error .BufferTooSmall
  | .atomic v, segs =>
      if segs ≠ [] then .error .PathTooLong
      else if v.length ≤ bufSize then .ok v else .error .BufferTooSmall
  | .array n c, segs =>
      match segs with
      | [] => .error .PathTooShort
      | s :: rest =>
          match parseIndex s with
          | none => .error .BadIndex
          | some i => if i ≥ n then .error .BadIndex else c.string_get bufSize rest
  | .record fs, segs =>
      match segs with
      | [] => .error .PathTooShort
      | s :: rest => Fields.getIn bufSize fs s rest

def Fields.getIn (bufSize : Nat) : Fields → Chars → List Chars → Except Error Chars
  | .fnil, _, _ => .error .MissingField
  | .fcons name c restF, s, segs =>
      if s = name then c.string_get bufSize segs
      else Fields.getIn bufSize restF s segs
end

/-! MQTT settings session (`src/mqtt_client/mqtt_client.rs`). -/

/-- States of the `smlang` state machine (lines 48-72). -/
inductive SmState where
  | Initial
  | ConnectedToBroker
  | PendingSubscribe
  | PendingRepublish
  | RepublishingSettings
  | Active
deriving DecidableEq

/-- Events of the state machine. -/
inductive SmEvent where
  | Connected
  | IndicatedLife
  | Subscribed
  | StartRepublish
  | RepublishComplete
  | Reset
deriving DecidableEq

/-- `process_event`: the transition table of the `statemachine!` block,
`none` for an event a state does not handle (smlang's
`Err(InvalidEvent)`, which leaves the state unchanged). -/
def smProcess : SmState → SmEvent → Option SmState
  | .Initial, .Connected => some .ConnectedToBroker
  | .ConnectedToBroker, .IndicatedLife => some .PendingSubscribe
  | .PendingSubscribe, .Subscribed => some .PendingRepublish
  | .PendingRepublish, .StartRepublish => some .RepublishingSettings
  | .RepublishingSettings, .StartRepublish => some .RepublishingSettings
  | .Active, .StartRepublish => some .RepublishingSettings
  | .RepublishingSettings, .RepublishComplete => some .Active
  | .Initial, .Reset => some .Initial
  | .ConnectedToBroker, .Reset => some .Initial
  | .PendingSubscribe, .Reset => some .Initial
  | .PendingRepublish, .Reset => some .Initial
  | .RepublishingSettings, .Reset => some .Initial
  | .Active, .Reset => some .Initial
  | _, _ => none

/-- Transport-visible operations a tick performs, in order.
`aliveAttempt ok` is the retained `"1"` publish to `<prefix>/alive` of
`handle_indicating_alive` (with its success flag), `subAttempt ok` the
subscription to `<prefix>/settings/#` of `handle_subscription`,
`drain` a `handle_republish` run, and `reset` a processed `Reset`
event (disconnect observed, or a session-reset poll error). -/
inductive Op where
  | aliveAttempt (ok : Bool)
  | subAttempt (ok : Bool)
  | drain
  | reset
deriving DecidableEq

/-- Outcome of `mqtt.poll` as visible to `handle_mqtt_traffic`; other
transport errors are opaque and carried as a code. -/
inductive PollRes where
  | okPoll
  | sessionReset
  | otherErr (e : Nat)
deriving DecidableEq

/-- Environment of one `handled_update` tick: connectivity, whether the
liveness publish / subscription would succeed, the republish timeout
test, whether a republish tick drains to completion, and the poll
outcome. -/
structure TickIn where
  connected : Bool
  aliveOk : Bool
  subOk : Bool
  timedOut : Bool
  repubDone : Bool
  poll : PollRes
deriving DecidableEq

/-- One `handled_update` tick (lines 304-337) at state-machine
granularity: reset if disconnected, dispatch on the state, then handle
traffic (whose session-reset error also fires `Reset`).  Returns the
new state and the ordered transport operations. -/
def tickStep (s : SmState) (inp : TickIn) : SmState × List Op :=
  let p1 :=
    if inp.connected then (s, ([] : List Op))
    else ((smProcess s .Reset).getD s, [Op.reset])
  let p2 :=
    match p1.1 with
    | .Initial =>
        if inp.connected then ((smProcess .Initial .Connected).getD .Initial, ([] : List Op))
        else (p1.1, [])
    | .ConnectedToBroker =>
        (if inp.aliveOk then (smProcess .ConnectedToBroker .IndicatedLife).getD p1.1 else p1.1,
          [Op.aliveAttempt inp.aliveOk])
    | .PendingSubscribe =>
        (if inp.subOk then (smProcess .PendingSubscribe .Subscribed).getD p1.1 else p1.1,
          [Op.subAttempt inp.subOk])
    | .PendingRepublish =>
        (if inp.timedOut then (smProcess .PendingRepublish .StartRepublish).getD p1.1 else p1.1,
          ([] : List Op))
    | .RepublishingSettings =>
        (if inp.repubDone then (smProcess .RepublishingSettings .RepublishComplete).getD p1.1
          else p1.1, [Op.drain])
    | .Active => (p1.1, [])
  let p3 :=
    match inp.poll with
    | .sessionReset => ((smProcess p2.1 .Reset).getD p2.1, [Op.reset])
    | _ => (p2.1, ([] : List Op))
  (p3.1, p1.2 ++ p2.2 ++ p3.2)

/-- `force_republish` (lines 434-436): `process_event(StartRepublish)`
with the error discarded, so an unhandled state is left unchanged. -/
def forceStep (s : SmState) : SmState × List Op :=
  ((smProcess s .StartRepublish).getD s, [])

/-- An externally triggered action on the session. -/
inductive Act where
  | tick (inp : TickIn)
  | force
deriving DecidableEq

def actStep (s : SmState) : Act → SmState × List Op
  | .tick inp => tickStep s inp
  | .force => forceStep s

/-- State after running a list of actions from a state. -/
def execState (s : SmState) : List Act → SmState
  | [] => s
  | a :: as' => execState (actStep s a).1 as'

/-- Concatenated transport-operation stream of a run. -/
def opStream (s : SmState) : List Act → List Op
  | [] => []
  | a :: as' => (actStep s a).2 ++ opStream (actStep s a).1 as'

/-- Fold step tracking "a successful liveness publish has happened and
no reset has followed it". -/
def aliveStep (fl : Bool) (op : Op) : Bool :=
  match op with
  | .reset => false
  | .aliveAttempt true => true
  | _ => fl

/-- Fold step tracking "a successful subscription has happened and no
reset has followed it". -/
def subStep (fl : Bool) (op : Op) : Bool :=
  match op with
  | .reset => false
  | .subAttempt true => true
  | _ => fl

/-- True when a successful liveness publish has happened in the
operation stream with no reset after it (i.e. in the current broker
session). -/
def aliveSince (ops : List Op) : Bool := ops.foldl aliveStep false

/-- True when a successful subscription has happened with no reset
after it. -/
def subSince (ops : List Op) : Bool := ops.foldl subStep false

/-- States reachable only after the liveness publish succeeded in the
current session. -/
def sessionOkS (s : SmState) : Bool :=
  match s with
  | .PendingSubscribe | .PendingRepublish | .RepublishingSettings | .Active => true
  | _ => false

/-- States reachable only after the subscription succeeded in the
current session. -/
def subbedS (s : SmState) : Bool :=
  match s with
  | .PendingRepublish | .RepublishingSettings | .Active => true
  | _ => false

/-- An environment input for a tick in which everything succeeds. -/
def okTick : TickIn := ⟨true, true, true, true, true, .okPoll⟩

/-- `str::strip_prefix`: the tail after `p` when `s` starts with `p`. -/
def stripPre (p s : Chars) : Option Chars :=
  if s.take p.length = p then some (s.drop p.length) else none

/-- Response payload of `messages.rs` (not shipped under `src/`),
modelled from the spec, section 6: code `0`, or a nonzero code with a
reason string. -/
inductive Resp where
  | okResp
  | errResp (msg : Chars)
deriving DecidableEq

/-- Debug rendering of an error kind (Rust `{:?}`). -/
def debugErr : Error → Chars
  | .PathTooShort => "PathTooShort".toList
  | .PathTooLong => "PathTooLong".toList
  | .BadIndex => "BadIndex".toList
  | .MissingField => "MissingField".toList
  | .DecodeError => "DecodeError".toList
  | .BufferTooSmall => "BufferTooSmall".toList

/-- Debug rendering of the failed `Result` that line 381 formats:
`write!(&mut msg, "{:?}", err)` prints `Err(<kind>)`. -/
def debugSetErr (e : Error) : Chars := "Err(".toList ++ debugErr e ++ ")".toList

/-- The reason string of an error response: the formatted error if it
fits the `cap`-byte message buffer, else the fixed fallback text
(lines 380-383). -/
def reasonOf (cap : Nat) (e : Error) : Chars :=
  if (debugSetErr e).length ≤ cap then debugSetErr e else "Configuration Error".toList

/-- Result of the poll callback on one inbound message. -/
structure MsgOut (α : Type) where
  settings : α
  updated : Bool
  response : Option (Chars × Resp)
deriving DecidableEq

/-- The poll callback of `handle_mqtt_traffic` (lines 356-401) on one
inbound message, generic over the settings type exactly as the Rust
code is generic over `Settings: Miniconf + Clone`: `sset` is the
tree's `string_set` (mutation of the cloned candidate modelled by
returning it), `handler` the user validator, which returns the new
live settings (promoting the candidate or not) and `none` for `Ok`
or a rejection reason.  `ns` is `settings_prefix`
(`<prefix>/settings`); `respCap` the response-message capacity;
`replyTo` the reply topic from the request properties; `logTopic` the
default `<prefix>/log`.  A `none` response models the early return
(message logged and dropped, nothing published).  `procPath` is the
body from the candidate clone's `string_set` onwards, given the
computed settings path. -/
def procPath (sset : α → List Chars → Chars → Except Error α)
    (handler : Chars → α → α → α × Option Chars)
    (respCap : Nat) (live : α) (path payload : Chars) (respTopic : Chars) : MsgOut α :=
  match sset live (splitSlash path) payload with
  | .ok cand =>
      let pr := handler path live cand
      ⟨pr.1, true,
        some (respTopic,
          match pr.2 with
          | none => .okResp
          | some r => .errResp r)⟩
  | .error e => ⟨live, false, some (respTopic, .errResp (reasonOf respCap e))⟩

def processMessage (sset : α → List Chars → Chars → Except Error α)
    (handler : Chars → α → α → α × Option Chars)
    (ns : Chars) (respCap : Nat) (live : α) (topic payload : Chars)
    (replyTo : Option Chars) (logTopic : Chars) : MsgOut α :=
  match stripPre ns topic with
  | none => ⟨live, false, none⟩
  | some tail =>
      procPath sset handler respCap live (if tail ≠ [] then tail.drop 1 else tail) payload
        (replyTo.getD logTopic)

/-- The tail of `handle_mqtt_traffic` (lines 402-410): mapping of the
poll outcome to the tick's return value.  `updated` is the flag
accumulated by the poll callback.  A session-reset error fires `Reset`
and is consumed as `Ok(false)`; any other transport error propagates
unchanged. -/
def handleTraffic (st : SmState) (updated : Bool) : PollRes → SmState × Except Nat Bool
  | .okPoll => (st, .ok updated)
  | .sessionReset => ((smProcess st .Reset).getD st, .ok false)
  | .otherErr e => (st, .error e)

/-- A publish issued during republish: full topic, payload bytes, and
the retain flag (the QoS is always at-most-once in `handle_republish`
and is not modelled separately). -/
structure Pub where
  topic : Chars
  payload : Chars
  retained : Bool
deriving DecidableEq

/-- Outcome of one `handle_republish` call: the publishes issued, the
final cursor (`republish_state`), and whether `RepublishComplete` was
issued; or a panic (a failed `unwrap`). -/
inductive RepubOut where
  | ok (pubs : List Pub) (cursor : List Nat) (completed : Bool)
  | panic (msg : String)
deriving DecidableEq

/-- The `for` loop of `handle_republish` (lines 191-223), entered with
`budget ≥ 1` remaining transport publishes; the loop runs at most
`budget` iterations because every iteration but the last publishes.
Per iteration: pull the next path (fresh topic buffer of capacity
`ts`), read it with `get` into the `msgSz`-byte staging buffer
(`unwrap`: a get error is a panic), build `<ns>/<path>` in a fresh
`ts`-capacity buffer (`unwrap` on overflow), publish non-retained,
then bail out if the budget is exhausted. -/
def repubLoop (t : Node) (ns : Chars) (ts msgSz : Nat) : Nat → List Nat → RepubOut
  | 0, cursor => .ok [] cursor false
  | b + 1, cursor =>
      match t.recursePaths cursor ⟨ts, []⟩ with
      | .panicked m => .panic m
      | .exhausted c2 _ => .ok [] c2 true
      | .yielded c2 topicB =>
          match t.string_get msgSz (splitSlash topicB.data) with
          | .error _ => .panic "settings get unwrap"
          | .ok v =>
              if ns.length + 1 + topicB.data.length ≤ ts then
                let pb : Pub := ⟨ns ++ '/' :: topicB.data, v, false⟩
                if b = 0 then .ok [pb] c2 false
                else
                  match repubLoop t ns ts msgSz b c2 with
                  | .ok ps c3 comp => .ok (pb :: ps) c3 comp
                  | .panic m => .panic m
              else .panic "prefixed topic write unwrap"

/-- `handle_republish` (lines 186-229).  `budget` is the number of
publishes the transport will still accept this tick (`can_publish` is
`budget > 0`).  The iterator construction validates the cursor length
and topic capacity against the metadata and is unwrapped (spec section
4.3; `into_iter` lives in the crate root, not under `src/`). -/
def handleRepublish (t : Node) (ns : Chars) (ts msgSz : Nat) (budget : Nat)
    (cursor : List Nat) : RepubOut :=
  if budget = 0 then .ok [] cursor false
  else if (t.get_metadata).max_depth ≤ cursor.length ∧ (t.get_metadata).max_topic_size ≤ ts then
    repubLoop t ns ts msgSz budget cursor
  else .panic "into_iter unwrap"

/-- A whole republish pass: `handle_republish` ticks with the given
per-tick publish budgets, stopping at the tick that issues
`RepublishComplete` (after which the machine is `Active` and later
ticks republish nothing).  `none` on a panic. -/
def runPass (t : Node) (ns : Chars) (ts msgSz : Nat) :
    List Nat → List Nat → Option (List Pub × List Nat × Bool)
  | [], cursor => some ([], cursor, false)
  | b :: bs, cursor =>
      match handleRepublish t ns ts msgSz b cursor with
      | .panic _ => none
      | .ok pubs c2 true => some (pubs, c2, true)
      | .ok pubs c2 false =>
          match runPass t ns ts msgSz bs c2 with
          | some (ps, c3, comp) => some (pubs ++ ps, c3, comp)
          | none => none

/-- Characters a subtree appends to a topic buffer holding `d` when it
yields the path `p`: nothing for the empty path, else a separator
(when the buffer is nonempty) followed by the rendered path. -/
def appFor (d : Chars) (p : List Chars) : Chars :=
  if p = [] then [] else (if d = [] then [] else ['/']) ++ pathChars p

/-- The publish a republish pass issues for the leaf path `p`: topic
`<ns>/<p>`, the bytes `get` wrote for `p`, non-retained. -/
def pubOf (t : Node) (ns : Chars) (msgSz : Nat) (p : List Chars) : Pub :=
  ⟨ns ++ '/' :: pathChars p, (t.string_get msgSz (splitSlash (pathChars p))).toOption.getD [],
    false⟩

/-- The full publish list of a republish pass over `t`: every leaf path
in preorder, prefixed with `<ns>/`, with its serialized value,
non-retained. -/
def expectedPubs (t : Node) (ns : Chars) (msgSz : Nat) : List Pub :=
  t.pathsN.map (pubOf t ns msgSz)

/-- Correctness property of a fresh cursor: an all-zero cursor of
sufficient length stands for the full preorder path list. -/
def NodeZero (t : Node) : Prop :=
  ∀ cur : List Nat, (∀ x ∈ cur, x = 0) → t.get_metadata.max_depth ≤ cur.length →
    t.emitN cur = t.pathsN

/-- Correctness property of one advancing `recurse_paths` call: from a
cursor standing for `p :: ps`, with enough cursor depth and topic
room, the call yields, appends exactly `p` to the topic, and leaves a
cursor standing for `ps`. -/
def NodeYield (t : Node) : Prop :=
  ∀ (cur : List Nat) (b : BString) (p : List Chars) (ps : List (List Chars)),
    t.wfB = true → t.get_metadata.max_depth ≤ cur.length → roomFor (pathMax t) b →
    t.emitN cur = p :: ps →
    ∃ cur2, t.recursePaths cur b = .yielded cur2 ⟨b.cap, b.data ++ appFor b.data p⟩ ∧
      cur2.length = cur.length ∧ t.emitN cur2 = ps

/-- Correctness property of an exhausted `recurse_paths` call: from a
cursor standing for no further paths, the call returns `None` with the
topic restored. -/
def NodeExh (t : Node) : Prop :=
  ∀ (cur : List Nat) (b : BString),
    t.wfB = true → t.get_metadata.max_depth ≤ cur.length → roomFor (pathMax t) b →
    t.emitN cur = [] →
    ∃ cur2, t.recursePaths cur b = .exhausted cur2 b ∧ cur2.length = cur.length

/-- `NodeZero` for the field loop: a zero sub-cursor at the first of
the fields `fs` stands for all their paths. -/
def FldsZero (fs : Fields) : Prop :=
  ∀ tailc : List Nat, (∀ x ∈ tailc, x = 0) → fs.metaFold.max_depth ≤ tailc.length →
    emitRec fs tailc = fs.pathsF

/-- `NodeYield` for the field loop over the field suffix `fs`, entered
at absolute field index `i`: `k` is the number of fields the loop
skipped before yielding. -/
def FldsYield (fs : Fields) : Prop :=
  ∀ (i : Nat) (tailc : List Nat) (b : BString) (p : List Chars) (ps : List (List Chars)),
    fs.wfB = true → fs.metaFold.max_depth ≤ tailc.length → roomFor (pathMaxF fs) b →
    emitRec fs tailc = p :: ps →
    ∃ k cur2, recurseFlds fs i tailc b b.data.length =
        .yielded ((i + k) :: cur2) ⟨b.cap, b.data ++ appFor b.data p⟩ ∧
      cur2.length = tailc.length ∧ emitRec (fs.drop k) cur2 = ps

/-- `NodeExh` for the field loop. -/
def FldsExh (fs : Fields) : Prop :=
  ∀ (i : Nat) (tailc : List Nat) (b : BString),
    fs.wfB = true → fs.metaFold.max_depth ≤ tailc.length → roomFor (pathMaxF fs) b →
    emitRec fs tailc = [] →
    ∃ j cur2, recurseFlds fs i tailc b b.data.length = .exhausted (j :: cur2) b ∧
      cur2.length = tailc.length

/-- The `[T; 1]` tree (single-element array of a unit-like leaf) on
which `get_metadata` under-reports the topic size. -/
def oneElemArray : Node := .array 1 (.leaf [])

/-- A one-field settings struct whose leaf serializes to three bytes,
used against a two-byte `MESSAGE_SIZE`. -/
def bigLeafTree : Node := .record (.fcons ['f'] (.leaf ['a', 'b', 'c']) .fnil)

/-- The spec's S4 scenario shape: `struct S { data: [f32; 2] }`. -/
def s4Tree : Node := .record (.fcons ['d', 'a', 't', 'a'] (.array 2 (.leaf ['0'])) .fnil)

/-! Basic lemmas. -/

/-- Mutual structural induction over trees and field lists. -/
theorem mutInd {P : Node → Prop} {Q : Fields → Prop}
    (h1 : ∀ v, P (.leaf v)) (h2 : ∀ v, P (.atomic v))
    (h3 : ∀ n c, P c → P (.array n c)) (h4 : ∀ fs, Q fs → P (.record fs))
    (h5 : Q .fnil) (h6 : ∀ name c rest, P c → Q rest → Q (.fcons name c rest)) :
    (∀ t, P t) ∧ (∀ fs, Q fs) :=
  ⟨fun t => @Node.rec P Q h1 h2 h3 h4 h5 h6 t, fun fs => @Fields.rec P Q h1 h2 h3 h4 h5 h6 fs⟩

theorem mem_cmap {f : α → List β} {l : List α} {b : β} :
    b ∈ cmap f l ↔ ∃ a ∈ l, b ∈ f a := by
  induction l with
  | nil => simp [cmap]
  | cons x xs ih => simp [cmap, ih]

theorem cmap_cons (f : α → List β) (x : α) (xs : List α) :
    cmap f (x :: xs) = f x ++ cmap f xs := rfl

theorem pathChars_cons (s : Chars) (r : List Chars) (h : r ≠ []) :
    pathChars (s :: r) = s ++ '/' :: pathChars r := by
  cases r with
  | nil => exact absurd rfl h
  | cons a as => rfl

theorem pathLen_cons (s : Chars) (r : List Chars) (h : r ≠ []) :
    pathLen (s :: r) = s.length + 1 + pathLen r := by
  cases r with
  | nil => exact absurd rfl h
  | cons a as => rfl

theorem length_pathChars (p : List Chars) : (pathChars p).length = pathLen p := by
  induction p with
  | nil => rfl
  | cons s r ih =>
      cases r with
      | nil => simp [pathChars, pathLen]
      | cons a as =>
          rw [pathChars_cons s _ (by simp), pathLen_cons s _ (by simp)]
          simp only [List.length_append, List.length_cons, ih]
          omega

theorem pathLen_le_of_cons {s : Chars} {r : List Chars} : s.length ≤ pathLen (s :: r) := by
  cases r with
  | nil => simp [pathLen]
  | cons a as => rw [pathLen_cons s _ (by simp)]; omega

theorem digCh_isDigit {d : Nat} (h : d < 10) : (digCh d).isDigit = true := by
  interval_cases d <;> decide

theorem digCh_toNat {d : Nat} (h : d < 10) : (digCh d).toNat - 48 = d := by
  interval_cases d <;> decide

theorem digCh_ne_slash {d : Nat} (h : d < 10) : digCh d ≠ '/' := by
  interval_cases d <;> decide

theorem decRep_eq (n : Nat) :
    decRep n = if n < 10 then [digCh n] else decRep (n / 10) ++ [digCh (n % 10)] := by
  rw [decRep]
  split <;> rfl

theorem decRep_ne_nil (n : Nat) : decRep n ≠ [] := by
  rw [decRep_eq]
  split <;> simp

theorem decRep_all_digits (n : Nat) : ∀ ch ∈ decRep n, ch.isDigit = true := by
  induction n using Nat.strong_induction_on with
  | _ n ih =>
      rw [decRep_eq]
      split
      · intro ch hch
        simp at hch
        subst hch
        exact digCh_isDigit (by omega)
      · intro ch hch
        simp at hch
        rcases hch with hch | hch
        · exact ih (n / 10) (Nat.div_lt_self (by omega) (by omega)) ch hch
        · subst hch
          exact digCh_isDigit (Nat.mod_lt _ (by omega))

theorem decRep_no_slash (n : Nat) : ∀ ch ∈ decRep n, ch ≠ '/' := by
  intro ch hch
  have := decRep_all_digits n ch hch
  intro hcon
  subst hcon
  simp at this

theorem length_decRep_pos (n : Nat) : 1 ≤ (decRep n).length := by
  have := decRep_ne_nil n
  cases h : decRep n with
  | nil => exact absurd h this
  | cons a as => simp

theorem num_digits_eq (n : Nat) :
    num_digits n = if n = 0 then 0 else num_digits (n / 10) + 1 := by
  cases n with
  | zero => simp [num_digits]
  | succ m => rw [num_digits]; simp

theorem num_digits_pos {n : Nat} (h : 1 ≤ n) : 1 ≤ num_digits n := by
  rw [num_digits_eq]
  have hn : n ≠ 0 := by omega
  simp [hn]

theorem num_digits_mono : ∀ {m k : Nat}, m ≤ k → num_digits m ≤ num_digits k := by
  intro m
  induction m using Nat.strong_induction_on with
  | _ m ih =>
      intro k hmk
      rw [num_digits_eq m, num_digits_eq k]
      by_cases hm : m = 0
      · simp [hm]
      · have hk : k ≠ 0 := by omega
        simp only [hm, hk, if_neg, if_false]
        have : m / 10 < m := Nat.div_lt_self (by omega) (by omega)
        have := ih (m / 10) this (Nat.div_le_div_right hmk)
        omega

theorem length_decRep_eq_num_digits : ∀ {n : Nat}, 1 ≤ n → (decRep n).length = num_digits n := by
  intro n
  induction n using Nat.strong_induction_on with
  | _ n ih =>
      intro hn
      rw [decRep_eq, num_digits_eq]
      have hn0 : n ≠ 0 := by omega
      by_cases h10 : n < 10
      · simp [h10, hn0, Nat.div_eq_of_lt h10, num_digits]
      · have hd : 1 ≤ n / 10 := (Nat.one_le_div_iff (by omega)).mpr (by omega)
        have hrec := ih (n / 10) (Nat.div_lt_self (by omega) (by omega)) hd
        simp only [h10, if_neg, not_false_iff, List.length_append, List.length_cons,
          List.length_nil, hrec]
        simp [hn0]

theorem length_decRep_le {i n : Nat} (hi : i < n) (h2 : 2 ≤ n) :
    (decRep i).length ≤ num_digits (n - 1) := by
  by_cases hi0 : i = 0
  · subst hi0
    have : (decRep 0).length = 1 := by rw [decRep_eq]; simp
    rw [this]
    exact num_digits_pos (by omega)
  · rw [length_decRep_eq_num_digits (by omega)]
    exact num_digits_mono (by omega)

theorem maxLen_cons (q : List Chars) (qs : List (List Chars)) :
    maxLen (q :: qs) = max (pathLen q) (maxLen qs) := rfl

theorem maxLen_ge {ps : List (List Chars)} {p : List Chars} (h : p ∈ ps) :
    pathLen p ≤ maxLen ps := by
  induction ps with
  | nil => cases h
  | cons q qs ih =>
      rw [maxLen_cons]
      rcases List.mem_cons.mp h with h | h
      · subst h
        exact le_max_left _ _
      · exact le_trans (ih h) (le_max_right _ _)

theorem maxLen_attained {ps : List (List Chars)} (h : ps ≠ []) :
    ∃ p ∈ ps, pathLen p = maxLen ps := by
  induction ps with
  | nil => exact absurd rfl h
  | cons q qs ih =>
      cases hqs : qs with
      | nil =>
          subst hqs
          exact ⟨q, by simp, by simp [maxLen_cons, maxLen]⟩
      | cons a as =>
          subst hqs
          rcases ih (by simp) with ⟨p, hp, hlen⟩
          rw [maxLen_cons]
          by_cases hc : maxLen (a :: as) ≤ pathLen q
          · exact ⟨q, by simp, (Nat.max_eq_left hc).symm⟩
          · refine ⟨p, by simp [hp], ?_⟩
            rw [Nat.max_eq_right (le_of_not_le hc)]
            exact hlen

theorem maxLen_le {ps : List (List Chars)} {m : Nat} (h : ∀ p ∈ ps, pathLen p ≤ m) :
    maxLen ps ≤ m := by
  induction ps with
  | nil => exact Nat.zero_le m
  | cons q qs ih =>
      rw [maxLen_cons]
      exact max_le (h q (by simp)) (ih (fun p hp => h p (by simp [hp])))

theorem pathLen_pos_of_seg {p : List Chars} (hp : p ≠ []) (hseg : ∀ seg ∈ p, seg ≠ []) :
    1 ≤ pathLen p := by
  cases p with
  | nil => exact absurd rfl hp
  | cons s r =>
      have hs : s ≠ [] := hseg s (by simp)
      have : 1 ≤ s.length := by
        cases s with
        | nil => exact absurd rfl hs
        | cons a as => simp
      calc 1 ≤ s.length := this
        _ ≤ pathLen (s :: r) := pathLen_le_of_cons

/-! Well-formedness consequences. -/

theorem wf_paths_facts :
    (∀ t : Node, t.wfB = true → t.pathsN ≠ [] ∧
      ∀ p ∈ t.pathsN, ∀ seg ∈ p, seg ≠ [] ∧ ∀ ch ∈ seg, ch ≠ '/') ∧
    (∀ fs : Fields, fs.wfB = true → (fs = .fnil ∨ fs.pathsF ≠ []) ∧
      ∀ p ∈ fs.pathsF, ∀ seg ∈ p, seg ≠ [] ∧ ∀ ch ∈ seg, ch ≠ '/') := by
  refine @mutInd _ _ ?_ ?_ ?_ ?_ ?_ ?_
  · intro v _
    refine ⟨by simp [Node.pathsN], ?_⟩
    intro p hp
    simp [Node.pathsN] at hp
    subst hp
    intro seg hseg
    cases hseg
  · intro v _
    refine ⟨by simp [Node.pathsN], ?_⟩
    intro p hp
    simp [Node.pathsN] at hp
    subst hp
    intro seg hseg
    cases hseg
  · intro n c ih hwf
    simp only [Node.wfB, Bool.and_eq_true, decide_eq_true_eq] at hwf
    obtain ⟨hn, hcwf⟩ := hwf
    obtain ⟨hcne, hcseg⟩ := ih hcwf
    constructor
    · simp only [Node.pathsN]
      obtain ⟨n', hn'⟩ : ∃ n', n = n' + 1 := ⟨n - 1, by omega⟩
      subst hn'
      rw [List.range'_succ, cmap_cons]
      intro hcon
      rcases List.append_eq_nil.mp hcon with ⟨h1, _⟩
      rcases List.map_eq_nil_iff.mp h1 with h2
      exact hcne h2
    · intro p hp
      simp only [Node.pathsN] at hp
      rw [mem_cmap] at hp
      obtain ⟨j, _, hp⟩ := hp
      rcases List.mem_map.mp hp with ⟨q, hq, rfl⟩
      intro seg hseg
      rcases List.mem_cons.mp hseg with rfl | hseg
      · exact ⟨decRep_ne_nil j, decRep_no_slash j⟩
      · exact hcseg q hq seg hseg
  · intro fs ih hwf
    simp only [Node.wfB, Bool.and_eq_true] at hwf
    obtain ⟨hne, hfwf⟩ := hwf
    obtain ⟨hcases, hseg⟩ := ih hfwf
    constructor
    · simp only [Node.pathsN]
      rcases hcases with rfl | h
      · cases hne
      · exact h
    · intro p hp
      simp only [Node.pathsN] at hp
      exact hseg p hp
  · intro _
    exact ⟨Or.inl rfl, by intro p hp; cases hp⟩
  · intro name c rest ihc ihr hwf
    simp only [Fields.wfB, Bool.and_eq_true] at hwf
    obtain ⟨⟨⟨⟨hname, hns⟩, hdist⟩, hcwf⟩, hrwf⟩ := hwf
    obtain ⟨hcne, hcseg⟩ := ihc hcwf
    obtain ⟨_, hrseg⟩ := ihr hrwf
    have hnm : name ≠ [] := by
      cases name with
      | nil => simp [List.isEmpty] at hname
      | cons a as => simp
    constructor
    · refine Or.inr ?_
      simp only [Fields.pathsF]
      intro hcon
      rcases List.append_eq_nil.mp hcon with ⟨h1, _⟩
      exact hcne (List.map_eq_nil_iff.mp h1)
    · intro p hp
      simp only [Fields.pathsF, List.mem_append] at hp
      rcases hp with hp | hp
      · rcases List.mem_map.mp hp with ⟨q, hq, rfl⟩
        intro seg hseg
        rcases List.mem_cons.mp hseg with rfl | hseg
        · refine ⟨hnm, ?_⟩
          intro ch hch hcon
          subst hcon
          have hc : seg.contains '/' = true := by
            rw [List.contains_eq_any_beq, List.any_eq_true]
            exact ⟨'/', hch, by simp⟩
          rw [hc] at hns
          simp at hns
        · exact hcseg q hq seg hseg
      · exact hrseg p hp

theorem md_array_depth (n : Nat) (c : Node) :
    (Node.array n c).get_metadata.max_depth = c.get_metadata.max_depth + 1 := by
  simp only [Node.get_metadata]
  split <;> rfl

theorem md_array_mts (n : Nat) (c : Node) :
    (Node.array n c).get_metadata.max_topic_size =
      if c.get_metadata.max_topic_size > 0 then
        c.get_metadata.max_topic_size + num_digits (n - 1) + 1
      else num_digits (n - 1) := by
  simp only [Node.get_metadata]
  split <;> rfl

theorem md_record (fs : Fields) :
    (Node.record fs).get_metadata = ⟨fs.metaFold.max_topic_size, fs.metaFold.max_depth + 1⟩ := by
  simp [Node.get_metadata]

theorem metaFold_cons (name : Chars) (c : Node) (rest : Fields) :
    (Fields.fcons name c rest).metaFold =
      ⟨max (name.length + (if c.get_metadata.max_topic_size > 0 then 1 else 0) +
          c.get_metadata.max_topic_size) rest.metaFold.max_topic_size,
        max c.get_metadata.max_depth rest.metaFold.max_depth⟩ := by
  simp [Fields.metaFold]

theorem md_depth_pos (t : Node) : 1 ≤ t.get_metadata.max_depth := by
  cases t with
  | leaf v => simp [Node.get_metadata]
  | atomic v => simp [Node.get_metadata]
  | array n c => rw [md_array_depth]; omega
  | record fs =>
      rw [md_record]
      dsimp only
      omega

theorem depth_facts :
    (∀ t : Node, ∀ p ∈ t.pathsN, p.length < t.get_metadata.max_depth) ∧
    (∀ fs : Fields, ∀ p ∈ fs.pathsF, p.length ≤ fs.metaFold.max_depth) := by
  refine @mutInd _ _ ?_ ?_ ?_ ?_ ?_ ?_
  · intro v p hp
    simp [Node.pathsN] at hp
    subst hp
    simp [Node.get_metadata]
  · intro v p hp
    simp [Node.pathsN] at hp
    subst hp
    simp [Node.get_metadata]
  · intro n c ih p hp
    simp only [Node.pathsN] at hp
    rw [mem_cmap] at hp
    obtain ⟨j, _, hp⟩ := hp
    rcases List.mem_map.mp hp with ⟨q, hq, rfl⟩
    rw [md_array_depth]
    have := ih q hq
    simp only [List.length_cons]
    omega
  · intro fs ih p hp
    simp only [Node.pathsN] at hp
    rw [md_record]
    have := ih p hp
    dsimp only
    omega
  · intro p hp
    cases hp
  · intro name c rest ihc ihr p hp
    simp only [Fields.pathsF, List.mem_append] at hp
    rw [metaFold_cons]
    dsimp only
    rcases hp with hp | hp
    · rcases List.mem_map.mp hp with ⟨q, hq, rfl⟩
      have := ihc q hq
      simp only [List.length_cons]
      omega
    · have := ihr p hp
      omega

theorem mts_facts :
    (∀ t : Node, t.wfB = true → t.arrMin 2 = true →
      pathMax t ≤ t.get_metadata.max_topic_size) ∧
    (∀ fs : Fields, fs.wfB = true → fs.arrMinF 2 = true →
      pathMaxF fs ≤ fs.metaFold.max_topic_size) := by
  refine @mutInd _ _ ?_ ?_ ?_ ?_ ?_ ?_
  · intro v _ _
    simp [pathMax, Node.pathsN, maxLen, pathLen, Node.get_metadata]
  · intro v _ _
    simp [pathMax, Node.pathsN, maxLen, pathLen, Node.get_metadata]
  · intro n c ih hwf harr
    simp only [Node.wfB, Bool.and_eq_true, decide_eq_true_eq] at hwf
    simp only [Node.arrMin, Bool.and_eq_true, decide_eq_true_eq] at harr
    obtain ⟨hn1, hcwf⟩ := hwf
    obtain ⟨hn2, hcarr⟩ := harr
    have hseg := ((wf_paths_facts).1 c hcwf).2
    have ihc := ih hcwf hcarr
    refine maxLen_le ?_
    intro p hp
    simp only [Node.pathsN] at hp
    rw [mem_cmap] at hp
    obtain ⟨j, hj, hp⟩ := hp
    rcases List.mem_map.mp hp with ⟨q, hq, rfl⟩
    have hjlt : j < n := by
      rw [List.mem_range'] at hj
      omega
    have hdig : (decRep j).length ≤ num_digits (n - 1) := length_decRep_le hjlt hn2
    rw [md_array_mts]
    by_cases hqe : q = []
    · subst hqe
      simp only [pathLen]
      split <;> omega
    · have hqlen : 1 ≤ pathLen q :=
        pathLen_pos_of_seg hqe (fun seg hs => (hseg q hq seg hs).1)
      have hqm : pathLen q ≤ pathMax c := maxLen_ge hq
      have hcm : c.get_metadata.max_topic_size > 0 := by omega
      rw [pathLen_cons _ _ hqe]
      simp only [hcm, if_pos]
      omega
  · intro fs ih hwf harr
    simp only [Node.wfB, Bool.and_eq_true] at hwf
    simp only [Node.arrMin] at harr
    have := ih hwf.2 harr
    rw [md_record]
    simpa [pathMax, Node.pathsN, pathMaxF] using this
  · intro _ _
    simp [pathMaxF, Fields.pathsF, maxLen]
  · intro name c rest ihc ihr hwf harr
    simp only [Fields.wfB, Bool.and_eq_true] at hwf
    simp only [Fields.arrMinF, Bool.and_eq_true] at harr
    obtain ⟨⟨⟨⟨hname, hns⟩, hdist⟩, hcwf⟩, hrwf⟩ := hwf
    obtain ⟨hcarr, hrarr⟩ := harr
    have hseg := ((wf_paths_facts).1 c hcwf).2
    have ihc2 := ihc hcwf hcarr
    have ihr2 := ihr hrwf hrarr
    refine maxLen_le ?_
    intro p hp
    simp only [Fields.pathsF, List.mem_append] at hp
    rw [metaFold_cons]
    dsimp only
    rcases hp with hp | hp
    · rcases List.mem_map.mp hp with ⟨q, hq, rfl⟩
      have hqm : pathLen q ≤ pathMax c := maxLen_ge hq
      have hbound : pathLen (name :: q) ≤
          name.length + (if c.get_metadata.max_topic_size > 0 then 1 else 0) +
            c.get_metadata.max_topic_size := by
        by_cases hqe : q = []
        · subst hqe
          simp only [pathLen]
          omega
        · have hqlen : 1 ≤ pathLen q :=
            pathLen_pos_of_seg hqe (fun seg hs => (hseg q hq seg hs).1)
          rw [pathLen_cons _ _ hqe]
          have hcm : c.get_metadata.max_topic_size > 0 := by omega
          simp only [hcm, if_pos]
          omega
      exact le_trans hbound (le_max_left _ _)
    · exact le_trans (le_trans (maxLen_ge hp) ihr2) (le_max_right _ _)

theorem Fields.drop_succ_of : ∀ (fs : Fields) (i : Nat) {name : Chars} {c : Node}
    {fsr : Fields}, fs.drop i = .fcons name c fsr → fs.drop (i + 1) = fsr
  | fs, 0, _, _, _, h => by
      simp only [Fields.drop] at h
      subst h
      simp [Fields.drop]
  | .fnil, i + 1, _, _, _, h => by
      simp [Fields.drop] at h
  | .fcons n2 c2 rest, i + 1, _, _, _, h => by
      simp only [Fields.drop] at h ⊢
      exact Fields.drop_succ_of rest i h

theorem Fields.wfB_drop : ∀ (fs : Fields) (i : Nat), fs.wfB = true → (fs.drop i).wfB = true
  | fs, 0, h => by simpa [Fields.drop] using h
  | .fnil, i + 1, h => by simpa [Fields.drop] using h
  | .fcons name c rest, i + 1, h => by
      simp only [Fields.drop]
      simp only [Fields.wfB, Bool.and_eq_true] at h
      exact Fields.wfB_drop rest i h.2

theorem Fields.metaFold_drop_depth : ∀ (fs : Fields) (i : Nat),
    (fs.drop i).metaFold.max_depth ≤ fs.metaFold.max_depth
  | fs, 0 => by simp [Fields.drop]
  | .fnil, i + 1 => by simp [Fields.drop]
  | .fcons name c rest, i + 1 => by
      simp only [Fields.drop]
      refine le_trans (Fields.metaFold_drop_depth rest i) ?_
      rw [metaFold_cons]
      exact le_max_right _ _

theorem Fields.pathsF_drop_sub : ∀ (fs : Fields) (i : Nat) (p : List Chars),
    p ∈ (fs.drop i).pathsF → p ∈ fs.pathsF
  | fs, 0, p, h => by simpa [Fields.drop] using h
  | .fnil, i + 1, p, h => by simpa [Fields.drop] using h
  | .fcons name c rest, i + 1, p, h => by
      simp only [Fields.drop] at h
      simp only [Fields.pathsF, List.mem_append]
      exact Or.inr (Fields.pathsF_drop_sub rest i p h)

theorem Fields.pathMaxF_drop_le (fs : Fields) (i : Nat) : pathMaxF (fs.drop i) ≤ pathMaxF fs := by
  refine maxLen_le ?_
  intro p hp
  exact maxLen_ge (Fields.pathsF_drop_sub fs i p hp)

theorem Fields.drop_fnil (i : Nat) : Fields.drop .fnil i = .fnil := by
  cases i <;> simp [Fields.drop]

theorem Fields.drop_add : ∀ (fs : Fields) (i k : Nat), fs.drop (i + k) = (fs.drop i).drop k := by
  intro fs i
  induction i generalizing fs with
  | zero => simp [Fields.drop]
  | succ m ih =>
      intro k
      cases fs with
      | fnil => simp [Fields.drop_fnil]
      | fcons name c rest =>
          have : m + 1 + k = (m + k) + 1 := by omega
          rw [this]
          simp only [Fields.drop]
          exact ih rest k

/-! Equation lemmas for the worker functions. -/

theorem emitN_leaf (v : Chars) (i : Nat) (rest : List Nat) :
    (Node.leaf v).emitN (i :: rest) = if i = 0 then [[]] else [] := by
  simp [Node.emitN]

theorem emitN_atomic (v : Chars) (i : Nat) (rest : List Nat) :
    (Node.atomic v).emitN (i :: rest) = if i = 0 then [[]] else [] := by
  simp [Node.emitN]

theorem emitN_array (n : Nat) (c : Node) (i : Nat) (rest : List Nat) :
    (Node.array n c).emitN (i :: rest) =
      (if i < n then (c.emitN rest).map (fun q => decRep i :: q) else []) ++
        cmap (fun j => c.pathsN.map (fun q => decRep j :: q))
          (List.range' (i + 1) (n - (i + 1))) := by
  simp [Node.emitN]

theorem emitN_record (fs : Fields) (i : Nat) (rest : List Nat) :
    (Node.record fs).emitN (i :: rest) = emitRec (fs.drop i) rest := by
  simp [Node.emitN]

theorem emitRec_fnil (rest : List Nat) : emitRec .fnil rest = [] := by
  simp [emitRec]

theorem emitRec_fcons (name : Chars) (c : Node) (fsr : Fields) (rest : List Nat) :
    emitRec (.fcons name c fsr) rest = (c.emitN rest).map (fun q => name :: q) ++ fsr.pathsF := by
  simp [emitRec]

theorem pathsN_leaf (v : Chars) : (Node.leaf v).pathsN = [[]] := by
  simp [Node.pathsN]

theorem pathsN_atomic (v : Chars) : (Node.atomic v).pathsN = [[]] := by
  simp [Node.pathsN]

theorem pathsN_array (n : Nat) (c : Node) :
    (Node.array n c).pathsN =
      cmap (fun j => c.pathsN.map (fun q => decRep j :: q)) (List.range' 0 n) := by
  simp [Node.pathsN]

theorem pathsN_record (fs : Fields) : (Node.record fs).pathsN = fs.pathsF := by
  simp [Node.pathsN]

theorem recursePaths_leaf (v : Chars) (i : Nat) (rest : List Nat) (b : BString) :
    (Node.leaf v).recursePaths (i :: rest) b =
      if i = 0 then .yielded (1 :: rest) b else .exhausted (i :: rest) b := by
  simp [Node.recursePaths]

theorem recursePaths_atomic (v : Chars) (i : Nat) (rest : List Nat) (b : BString) :
    (Node.atomic v).recursePaths (i :: rest) b =
      if i = 0 then .yielded (1 :: rest) b else .exhausted (i :: rest) b := by
  simp [Node.recursePaths]

theorem recursePaths_array (n : Nat) (c : Node) (i : Nat) (rest : List Nat) (b : BString) :
    (Node.array n c).recursePaths (i :: rest) b = recurseArr n c (n - i) i rest b b.data.length := by
  simp [Node.recursePaths]

theorem recursePaths_record (fs : Fields) (i : Nat) (rest : List Nat) (b : BString) :
    (Node.record fs).recursePaths (i :: rest) b =
      recurseFlds (fs.drop i) i rest b b.data.length := by
  simp [Node.recursePaths]

/-! Room arithmetic. -/

theorem roomFor_mono {m m2 : Nat} {b : BString} (h : roomFor m b) (hle : m2 ≤ m) :
    roomFor m2 b := by
  simp only [roomFor] at h ⊢
  by_cases h0 : m2 = 0
  · simp [h0]
    split at h <;> omega
  · have hm : m ≠ 0 := by omega
    simp only [h0, hm, if_neg, not_false_iff] at h ⊢
    split at h <;> split <;> omega

/-! The zero cursor stands for the full path list. -/

theorem zero_facts : (∀ t : Node, NodeZero t) ∧ (∀ fs : Fields, FldsZero fs) := by
  refine @mutInd _ _ ?_ ?_ ?_ ?_ ?_ ?_
  · intro v cur hz hd
    simp only [Node.get_metadata] at hd
    cases cur with
    | nil => simp at hd
    | cons x rest =>
        have : x = 0 := hz x (by simp)
        subst this
        rw [emitN_leaf, pathsN_leaf]
        simp
  · intro v cur hz hd
    simp only [Node.get_metadata] at hd
    cases cur with
    | nil => simp at hd
    | cons x rest =>
        have : x = 0 := hz x (by simp)
        subst this
        rw [emitN_atomic, pathsN_atomic]
        simp
  · intro n c ih cur hz hd
    rw [md_array_depth] at hd
    cases cur with
    | nil => simp at hd
    | cons x rest =>
        have hx : x = 0 := hz x (by simp)
        subst hx
        have hrest : c.emitN rest = c.pathsN :=
          ih rest (fun y hy => hz y (by simp [hy])) (by simp at hd; omega)
        rw [emitN_array, pathsN_array, hrest]
        cases n with
        | zero => simp [cmap]
        | succ m =>
            rw [List.range'_succ]
            rw [cmap_cons]
            simp
  · intro fs ih cur hz hd
    rw [md_record] at hd
    dsimp only at hd
    cases cur with
    | nil => simp at hd
    | cons x rest =>
        have hx : x = 0 := hz x (by simp)
        subst hx
        rw [emitN_record, pathsN_record]
        have h0 : Fields.drop fs 0 = fs := by simp [Fields.drop]
        rw [h0]
        exact ih rest (fun y hy => hz y (by simp [hy])) (by simp at hd; omega)
  · intro rest hz hd
    rw [emitRec_fnil]
    simp [Fields.pathsF]
  · intro name c fsr ihc ihr tailc hz hd
    rw [metaFold_cons] at hd
    dsimp only at hd
    rw [emitRec_fcons]
    have : c.emitN tailc = c.pathsN := ihc tailc hz (by omega)
    rw [this]
    simp [Fields.pathsF]

/-! Push-step helpers. -/

theorem pushList_some {b : BString} {s : Chars} (h : b.data.length + s.length ≤ b.cap) :
    b.pushList s = some ⟨b.cap, b.data ++ s⟩ := by
  simp [BString.pushList, h]

theorem sep_push (b : BString) (h : b.data.length + (if b.data = [] then 0 else 1) ≤ b.cap) :
    (if b.data.length > 0 then b.pushList ['/'] else some b) =
      some ⟨b.cap, b.data ++ (if b.data = [] then [] else ['/'])⟩ := by
  obtain ⟨cap, data⟩ := b
  by_cases hb : data = []
  · subst hb
    simp
  · have hlen : data.length > 0 := by
      cases data with
      | nil => exact absurd rfl hb
      | cons a as => simp
    simp only [hb, if_neg, not_false_iff, hlen, if_pos] at h ⊢
    rw [pushList_some (by simpa using h)]

theorem mem_pathsN_array {n : Nat} {c : Node} {j : Nat} (hj : j < n) {q : List Chars}
    (hq : q ∈ c.pathsN) : (decRep j :: q) ∈ (Node.array n c).pathsN := by
  rw [pathsN_array, mem_cmap]
  exact ⟨j, List.mem_range'.mpr ⟨j, hj, by omega⟩, List.mem_map.mpr ⟨q, hq, rfl⟩⟩

theorem pathMax_array_digits {n : Nat} {c : Node} {j : Nat} (hj : j < n)
    (hcne : c.pathsN ≠ []) : (decRep j).length ≤ pathMax (.array n c) := by
  obtain ⟨q0, hq0⟩ := List.exists_mem_of_ne_nil _ hcne
  exact le_trans pathLen_le_of_cons (maxLen_ge (mem_pathsN_array hj hq0))

theorem pathMax_array_full {n : Nat} {c : Node} {j : Nat} (hj : j < n) {q : List Chars}
    (hq : q ∈ c.pathsN) (hqne : q ≠ []) :
    (decRep j).length + 1 + pathLen q ≤ pathMax (.array n c) := by
  have := maxLen_ge (mem_pathsN_array hj hq)
  rwa [pathLen_cons _ _ hqne] at this

theorem pathMax_record_eq (fs : Fields) : pathMax (.record fs) = pathMaxF fs := by
  simp [pathMax, pathsN_record, pathMaxF]

theorem mem_pathsF_head {name : Chars} {c : Node} {fsr : Fields} {q : List Chars}
    (hq : q ∈ c.pathsN) : (name :: q) ∈ (Fields.fcons name c fsr).pathsF := by
  simp only [Fields.pathsF, List.mem_append]
  exact Or.inl (List.mem_map.mpr ⟨q, hq, rfl⟩)

theorem pathMaxF_name {name : Chars} {c : Node} {fsr : Fields} (hcne : c.pathsN ≠ []) :
    name.length ≤ pathMaxF (.fcons name c fsr) := by
  obtain ⟨q0, hq0⟩ := List.exists_mem_of_ne_nil _ hcne
  exact le_trans pathLen_le_of_cons (maxLen_ge (mem_pathsF_head hq0))

theorem pathMaxF_full {name : Chars} {c : Node} {fsr : Fields} {q : List Chars}
    (hq : q ∈ c.pathsN) (hqne : q ≠ []) :
    name.length + 1 + pathLen q ≤ pathMaxF (.fcons name c fsr) := by
  have := maxLen_ge (@mem_pathsF_head name c fsr q hq)
  rwa [pathLen_cons _ _ hqne] at this

theorem app_step (bd : Chars) (seg : Chars) (q : List Chars) (hseg : seg ≠ []) :
    (bd ++ (if bd = [] then [] else ['/']) ++ seg) ++
        appFor (bd ++ (if bd = [] then [] else ['/']) ++ seg) q =
      bd ++ appFor bd (seg :: q) := by
  have hX : bd ++ (if bd = [] then [] else ['/']) ++ seg ≠ [] := by
    intro hcon
    rcases List.append_eq_nil.mp hcon with ⟨_, h2⟩
    exact hseg h2
  by_cases hq : q = []
  · subst hq
    simp only [appFor, if_pos rfl, List.append_nil]
    simp [pathChars, List.append_assoc]
  · simp only [appFor, hq, if_neg, not_false_iff, hX, hseg]
    rw [pathChars_cons seg q hq]
    simp only [List.append_assoc]
    simp [List.cons_ne_nil]

/-- Invariant of the `while index[0] < N` loop of the array
`recurse_paths`, by induction on the remaining iterations. -/
theorem arrLoop_spec (n : Nat) (c : Node) (hz : NodeZero c) (hy : NodeYield c) (he : NodeExh c)
    (hcwf : c.wfB = true) :
    ∀ (fuel i : Nat) (tailc : List Nat) (b : BString), n ≤ fuel + i →
      c.get_metadata.max_depth ≤ tailc.length →
      roomFor (pathMax (.array n c)) b →
      (∀ p ps, (Node.array n c).emitN (i :: tailc) = p :: ps →
        ∃ j cur2, recurseArr n c fuel i tailc b b.data.length =
            .yielded (j :: cur2) ⟨b.cap, b.data ++ appFor b.data p⟩ ∧
          cur2.length = tailc.length ∧ (Node.array n c).emitN (j :: cur2) = ps) ∧
      ((Node.array n c).emitN (i :: tailc) = [] →
        ∃ j cur2, recurseArr n c fuel i tailc b b.data.length = .exhausted (j :: cur2) b ∧
          cur2.length = tailc.length) := by
  intro fuel
  induction fuel with
  | zero =>
      intro i tailc b hni hd hroom
      have hin : ¬ i < n := by omega
      have h0 : n - (i + 1) = 0 := by omega
      constructor
      · intro p ps hemit
        rw [emitN_array] at hemit
        simp [hin, h0, cmap] at hemit
      · intro _
        exact ⟨i, tailc, by simp [recurseArr], rfl⟩
  | succ fuel ih =>
      intro i tailc b hni hd hroom
      by_cases hin : i < n
      case neg =>
        have h0 : n - (i + 1) = 0 := by omega
        constructor
        · intro p ps hemit
          rw [emitN_array] at hemit
          simp [hin, h0, cmap] at hemit
        · intro _
          refine ⟨i, tailc, ?_, rfl⟩
          simp [recurseArr, hin]
      case pos =>
        have hcne : c.pathsN ≠ [] := ((wf_paths_facts).1 c hcwf).1
        have hsegf := ((wf_paths_facts).1 c hcwf).2
        have hdig_le : (decRep i).length ≤ pathMax (.array n c) := pathMax_array_digits hin hcne
        have hpm1 : 1 ≤ pathMax (.array n c) := le_trans (length_decRep_pos i) hdig_le
        have hroom2 : b.data.length + (if b.data = [] then 0 else 1) + pathMax (.array n c) ≤
            b.cap := by
          have hne : pathMax (.array n c) ≠ 0 := by omega
          simp only [roomFor, hne, if_neg, not_false_iff] at hroom
          omega
        have hps : (if b.data.length > 0 then b.pushList ['/'] else some b) =
            some ⟨b.cap, b.data ++ (if b.data = [] then [] else ['/'])⟩ :=
          sep_push b (by omega)
        have hsl : (if b.data = [] then ([] : Chars) else ['/']).length =
            (if b.data = [] then 0 else 1) := by
          by_cases hb : b.data = [] <;> simp [hb]
        have hp2len : b.data.length + (if b.data = [] then 0 else 1) + (decRep i).length ≤
            b.cap := by omega
        have hp2 : BString.pushList ⟨b.cap, b.data ++ (if b.data = [] then [] else ['/'])⟩
            (decRep i) =
            some ⟨b.cap, (b.data ++ (if b.data = [] then [] else ['/'])) ++ decRep i⟩ := by
          refine pushList_some ?_
          simp only [List.length_append, hsl]
          omega
        set t2 : BString := ⟨b.cap, (b.data ++ (if b.data = [] then [] else ['/'])) ++ decRep i⟩
          with ht2
        have ht2ne : t2.data ≠ [] := by
          intro hcon
          simp only [ht2] at hcon
          rcases List.append_eq_nil.mp hcon with ⟨_, h2⟩
          exact decRep_ne_nil i h2
        have ht2len : t2.data.length = b.data.length + (if b.data = [] then 0 else 1) +
            (decRep i).length := by
          simp [ht2, hsl]
          omega
        have hroomc : roomFor (pathMax c) t2 := by
          by_cases hc0 : pathMax c = 0
          · simp only [roomFor, hc0, if_pos, add_zero]
            simp only [ht2len]
            omega
          · obtain ⟨qm, hqm, hqml⟩ := maxLen_attained hcne
            have hqmne : qm ≠ [] := by
              intro hcon
              subst hcon
              simp [pathLen] at hqml
              exact hc0 hqml.symm
            have hfull := pathMax_array_full hin hqm hqmne
            have hqml2 : pathLen qm = pathMax c := hqml
            rw [hqml2] at hfull
            simp only [roomFor, hc0, if_neg, not_false_iff, ht2ne, ht2len]
            omega
        cases hce : c.emitN tailc with
        | cons q qs =>
            obtain ⟨cur2, hcy, hclen, hcemit⟩ := hy tailc t2 q qs hcwf hd hroomc hce
            have hred : recurseArr n c (fuel + 1) i tailc b b.data.length =
                .yielded (i :: cur2) ⟨t2.cap, t2.data ++ appFor t2.data q⟩ := by
              simp only [recurseArr, if_pos hin, hps, hp2, hcy]
            constructor
            · intro p ps hemit
              rw [emitN_array, hce] at hemit
              simp only [hin, if_pos, List.map_cons, List.cons_append, List.cons.injEq] at hemit
              obtain ⟨hp, hps2⟩ := hemit
              refine ⟨i, cur2, ?_, hclen, ?_⟩
              · rw [hred]
                subst hp
                have hdata : t2.data ++ appFor t2.data q = b.data ++ appFor b.data (decRep i :: q) := by
                  simp only [ht2]
                  exact app_step b.data (decRep i) q (decRep_ne_nil i)
                rw [show t2.cap = b.cap from rfl, hdata]
              · rw [emitN_array, hcemit]
                simp only [hin, if_pos]
                exact hps2
            · intro hemit
              rw [emitN_array, hce] at hemit
              simp [hin] at hemit
        | nil =>
            obtain ⟨cur2, hcx, hclen⟩ := he tailc t2 hcwf hd hroomc hce
            have htr : BString.trunc t2 b.data.length = b := by
              simp only [BString.trunc, ht2, List.append_assoc]
              rw [List.take_left]
            have hred : recurseArr n c (fuel + 1) i tailc b b.data.length =
                recurseArr n c fuel (i + 1) (cur2.map fun _ => 0)
                  (BString.trunc t2 b.data.length) b.data.length := by
              simp only [recurseArr, if_pos hin, hps, hp2, hcx]
            rw [htr] at hred
            have hzlen : (cur2.map fun _ => 0).length = tailc.length := by simp [hclen]
            have hznew : c.emitN (cur2.map fun _ => 0) = c.pathsN :=
              hz _ (by simp) (by rw [hzlen]; exact hd)
            have hemit_eq : (Node.array n c).emitN ((i + 1) :: (cur2.map fun _ => 0)) =
                (Node.array n c).emitN (i :: tailc) := by
              rw [emitN_array, emitN_array, hce, hznew]
              simp only [hin, if_pos, List.map_nil, List.nil_append]
              by_cases h1 : i + 1 < n
              · have hr : n - (i + 1) = (n - (i + 2)) + 1 := by omega
                rw [hr, List.range'_succ, cmap_cons]
                simp [h1]
              · have hr : n - (i + 1) = 0 := by omega
                have hr2 : n - (i + 1 + 1) = 0 := by omega
                simp [h1, hr, hr2, cmap]
            have hih := ih (i + 1) (cur2.map fun _ => 0) b (by omega)
              (by rw [hzlen]; exact hd) hroom
            constructor
            · intro p ps hemit
              obtain ⟨j, cur3, hres, hlen3, hem3⟩ := hih.1 p ps (by rw [hemit_eq]; exact hemit)
              exact ⟨j, cur3, by rw [hred]; exact hres, by rw [hlen3, hzlen], hem3⟩
            · intro hemit
              obtain ⟨j, cur3, hres, hlen3⟩ := hih.2 (by rw [hemit_eq]; exact hemit)
              exact ⟨j, cur3, by rw [hred]; exact hres, by rw [hlen3, hzlen]⟩

theorem pathMaxF_rest_le (name : Chars) (c : Node) (rest : Fields) :
    pathMaxF rest ≤ pathMaxF (.fcons name c rest) := by
  refine maxLen_le ?_
  intro p hp
  refine maxLen_ge ?_
  simp only [Fields.pathsF, List.mem_append]
  exact Or.inr hp

theorem recurseFlds_fnil (i : Nat) (tailc : List Nat) (b : BString) (origLen : Nat) :
    recurseFlds .fnil i tailc b origLen = .exhausted (i :: tailc) b := by
  simp [recurseFlds]

/-- Correctness of one `recurse_paths` step, for trees and for the
record field loop. -/
theorem step_facts :
    (∀ t : Node, NodeYield t ∧ NodeExh t) ∧
    (∀ fs : Fields, ∀ k : Nat, FldsYield (fs.drop k) ∧ FldsExh (fs.drop k)) := by
  refine @mutInd _ _ ?_ ?_ ?_ ?_ ?_ ?_
  · intro v
    constructor
    · intro cur b p ps _ hd _ hemit
      cases cur with
      | nil => simp [Node.get_metadata] at hd
      | cons i rest =>
          rw [emitN_leaf] at hemit
          by_cases hi : i = 0
          · subst hi
            simp only [if_pos] at hemit
            obtain ⟨hp, hps⟩ := List.cons.injEq _ _ _ _ ▸ hemit
            refine ⟨1 :: rest, ?_, rfl, ?_⟩
            · rw [recursePaths_leaf]
              simp [← hp, appFor]
            · rw [emitN_leaf]
              simp [← hps]
          · simp [hi] at hemit
    · intro cur b _ hd _ hemit
      cases cur with
      | nil => simp [Node.get_metadata] at hd
      | cons i rest =>
          rw [emitN_leaf] at hemit
          by_cases hi : i = 0
          · simp [hi] at hemit
          · refine ⟨i :: rest, ?_, rfl⟩
            rw [recursePaths_leaf]
            simp [hi]
  · intro v
    constructor
    · intro cur b p ps _ hd _ hemit
      cases cur with
      | nil => simp [Node.get_metadata] at hd
      | cons i rest =>
          rw [emitN_atomic] at hemit
          by_cases hi : i = 0
          · subst hi
            simp only [if_pos] at hemit
            obtain ⟨hp, hps⟩ := List.cons.injEq _ _ _ _ ▸ hemit
            refine ⟨1 :: rest, ?_, rfl, ?_⟩
            · rw [recursePaths_atomic]
              simp [← hp, appFor]
            · rw [emitN_atomic]
              simp [← hps]
          · simp [hi] at hemit
    · intro cur b _ hd _ hemit
      cases cur with
      | nil => simp [Node.get_metadata] at hd
      | cons i rest =>
          rw [emitN_atomic] at hemit
          by_cases hi : i = 0
          · simp [hi] at hemit
          · refine ⟨i :: rest, ?_, rfl⟩
            rw [recursePaths_atomic]
            simp [hi]
  · intro n c ihc
    have harr : ∀ (cur : List Nat) (b : BString), (Node.array n c).wfB = true →
        (Node.array n c).get_metadata.max_depth ≤ cur.length →
        ∃ i tailc, cur = i :: tailc ∧ c.get_metadata.max_depth ≤ tailc.length ∧
          c.wfB = true := by
      intro cur b hwf hd
      rw [md_array_depth] at hd
      simp only [Node.wfB, Bool.and_eq_true, decide_eq_true_eq] at hwf
      cases cur with
      | nil => simp at hd
      | cons i tailc =>
          exact ⟨i, tailc, rfl, by simp at hd; omega, hwf.2⟩
    constructor
    · intro cur b p ps hwf hd hroom hemit
      obtain ⟨i, tailc, rfl, hd2, hcwf⟩ := harr cur b hwf hd
      obtain ⟨j, cur2, hres, hlen, hem⟩ :=
        (arrLoop_spec n c ((zero_facts).1 c) ihc.1 ihc.2 hcwf (n - i) i tailc b (by omega) hd2
          hroom).1 p ps hemit
      refine ⟨j :: cur2, ?_, by simp [hlen], hem⟩
      rw [recursePaths_array]
      exact hres
    · intro cur b hwf hd hroom hemit
      obtain ⟨i, tailc, rfl, hd2, hcwf⟩ := harr cur b hwf hd
      obtain ⟨j, cur2, hres, hlen⟩ :=
        (arrLoop_spec n c ((zero_facts).1 c) ihc.1 ihc.2 hcwf (n - i) i tailc b (by omega) hd2
          hroom).2 hemit
      refine ⟨j :: cur2, ?_, by simp [hlen]⟩
      rw [recursePaths_array]
      exact hres
  · intro fs ihQ
    have hpre : ∀ (cur : List Nat), (Node.record fs).wfB = true →
        (Node.record fs).get_metadata.max_depth ≤ cur.length →
        ∃ i rest, cur = i :: rest ∧ fs.metaFold.max_depth ≤ rest.length ∧ fs.wfB = true := by
      intro cur hwf hd
      rw [md_record] at hd
      dsimp only at hd
      simp only [Node.wfB, Bool.and_eq_true] at hwf
      cases cur with
      | nil => simp at hd
      | cons i rest =>
          exact ⟨i, rest, rfl, by simp at hd; omega, hwf.2⟩
    constructor
    · intro cur b p ps hwf hd hroom hemit
      obtain ⟨i, rest, rfl, hd2, hfwf⟩ := hpre cur hwf hd
      rw [emitN_record] at hemit
      obtain ⟨k, cur2, hres, hlen, hem⟩ := (ihQ i).1 i rest b p ps
        (Fields.wfB_drop fs i hfwf)
        (le_trans (Fields.metaFold_drop_depth fs i) hd2)
        (roomFor_mono hroom (by rw [pathMax_record_eq]; exact Fields.pathMaxF_drop_le fs i))
        hemit
      refine ⟨(i + k) :: cur2, ?_, by simp [hlen], ?_⟩
      · rw [recursePaths_record]
        exact hres
      · rw [emitN_record, Fields.drop_add]
        exact hem
    · intro cur b hwf hd hroom hemit
      obtain ⟨i, rest, rfl, hd2, hfwf⟩ := hpre cur hwf hd
      rw [emitN_record] at hemit
      obtain ⟨j, cur2, hres, hlen⟩ := (ihQ i).2 i rest b
        (Fields.wfB_drop fs i hfwf)
        (le_trans (Fields.metaFold_drop_depth fs i) hd2)
        (roomFor_mono hroom (by rw [pathMax_record_eq]; exact Fields.pathMaxF_drop_le fs i))
        hemit
      refine ⟨j :: cur2, ?_, by simp [hlen]⟩
      rw [recursePaths_record]
      exact hres
  · intro k
    rw [Fields.drop_fnil]
    constructor
    · intro i tailc b p ps _ _ _ hemit
      rw [emitRec_fnil] at hemit
      cases hemit
    · intro i tailc b _ _ _ _
      exact ⟨i, tailc, recurseFlds_fnil i tailc b b.data.length, rfl⟩
  · intro name c rest hPc ihr k
    cases k with
    | succ k2 =>
        have : (Fields.fcons name c rest).drop (k2 + 1) = rest.drop k2 := by
          simp [Fields.drop]
        rw [this]
        exact ihr k2
    | zero =>
        have hdrop0 : ∀ gs : Fields, gs.drop 0 = gs := by intro gs; simp [Fields.drop]
        rw [hdrop0]
        have hr0 := ihr 0
        rw [hdrop0] at hr0
        constructor
        · intro i tailc b p ps hwf hd hroom hemit
          simp only [Fields.wfB, Bool.and_eq_true] at hwf
          obtain ⟨⟨⟨⟨hname, hns⟩, hdist⟩, hcwf⟩, hrwf⟩ := hwf
          have hcne : c.pathsN ≠ [] := ((wf_paths_facts).1 c hcwf).1
          have hnm : name ≠ [] := by
            cases name with
            | nil => simp [List.isEmpty] at hname
            | cons a as => simp
          have hname_le : name.length ≤ pathMaxF (.fcons name c rest) := pathMaxF_name hcne
          have hnl : 1 ≤ name.length := by
            cases name with
            | nil => exact absurd rfl hnm
            | cons a as => simp
          have hpm1 : 1 ≤ pathMaxF (.fcons name c rest) := le_trans hnl hname_le
          have hroom2 : b.data.length + (if b.data = [] then 0 else 1) +
              pathMaxF (.fcons name c rest) ≤ b.cap := by
            have hne : pathMaxF (.fcons name c rest) ≠ 0 := by omega
            simp only [roomFor, hne, if_neg, not_false_iff] at hroom
            omega
          have hps : (if b.data.length > 0 then b.pushList ['/'] else some b) =
              some ⟨b.cap, b.data ++ (if b.data = [] then [] else ['/'])⟩ :=
            sep_push b (by omega)
          have hsl : (if b.data = [] then ([] : Chars) else ['/']).length =
              (if b.data = [] then 0 else 1) := by
            by_cases hb : b.data = [] <;> simp [hb]
          have hp2 : BString.pushList ⟨b.cap, b.data ++ (if b.data = [] then [] else ['/'])⟩
              name = some ⟨b.cap, (b.data ++ (if b.data = [] then [] else ['/'])) ++ name⟩ := by
            refine pushList_some ?_
            simp only [List.length_append, hsl]
            omega
          set t2 : BString := ⟨b.cap, (b.data ++ (if b.data = [] then [] else ['/'])) ++ name⟩
            with ht2
          have ht2ne : t2.data ≠ [] := by
            intro hcon
            simp only [ht2] at hcon
            rcases List.append_eq_nil.mp hcon with ⟨_, h2⟩
            exact hnm h2
          have ht2len : t2.data.length = b.data.length + (if b.data = [] then 0 else 1) +
              name.length := by
            simp [ht2, hsl]
            omega
          have hroomc : roomFor (pathMax c) t2 := by
            by_cases hc0 : pathMax c = 0
            · simp only [roomFor, hc0, if_pos, add_zero]
              simp only [ht2len]
              omega
            · obtain ⟨qm, hqm, hqml⟩ := maxLen_attained hcne
              have hqml2 : pathLen qm = pathMax c := hqml
              have hqmne : qm ≠ [] := by
                intro hcon
                subst hcon
                simp [pathLen] at hqml2
                exact hc0 hqml2.symm
              have hfull := @pathMaxF_full name c rest qm hqm hqmne
              rw [hqml2] at hfull
              simp only [roomFor, hc0, if_neg, not_false_iff, ht2ne, ht2len]
              omega
          have hdc : c.get_metadata.max_depth ≤ tailc.length := by
            rw [metaFold_cons] at hd
            dsimp only at hd
            have := le_max_left c.get_metadata.max_depth rest.metaFold.max_depth
            omega
          rw [emitRec_fcons] at hemit
          cases hce : c.emitN tailc with
          | cons q qs =>
              obtain ⟨cur2, hcy, hclen, hcemit⟩ := hPc.1 tailc t2 q qs hcwf hdc hroomc hce
              rw [hce] at hemit
              simp only [List.map_cons, List.cons_append, List.cons.injEq] at hemit
              obtain ⟨hp, hps2⟩ := hemit
              have hred : recurseFlds (.fcons name c rest) i tailc b b.data.length =
                  .yielded (i :: cur2) ⟨t2.cap, t2.data ++ appFor t2.data q⟩ := by
                simp only [recurseFlds, hps, hp2, hcy]
              refine ⟨0, cur2, ?_, hclen, ?_⟩
              · rw [Nat.add_zero, hred]
                subst hp
                have hdata : t2.data ++ appFor t2.data q =
                    b.data ++ appFor b.data (name :: q) := by
                  simp only [ht2]
                  exact app_step b.data name q hnm
                rw [show t2.cap = b.cap from rfl, hdata]
              · rw [hdrop0, emitRec_fcons, hcemit]
                exact hps2
          | nil =>
              rw [hce] at hemit
              simp only [List.map_nil, List.nil_append] at hemit
              obtain ⟨cur2, hcx, hclen⟩ := hPc.2 tailc t2 hcwf hdc hroomc hce
              have htr : BString.trunc t2 b.data.length = b := by
                simp only [BString.trunc, ht2, List.append_assoc]
                rw [List.take_left]
              have hred : recurseFlds (.fcons name c rest) i tailc b b.data.length =
                  recurseFlds rest (i + 1) (cur2.map fun _ => 0)
                    (BString.trunc t2 b.data.length) b.data.length := by
                simp only [recurseFlds, hps, hp2, hcx]
              rw [htr] at hred
              have hzlen : (cur2.map fun _ => 0).length = tailc.length := by simp [hclen]
              have hrz : emitRec rest (cur2.map fun _ => 0) = rest.pathsF := by
                refine (zero_facts).2 rest _ (by simp) ?_
                rw [hzlen]
                rw [metaFold_cons] at hd
                dsimp only at hd
                have := le_max_right c.get_metadata.max_depth rest.metaFold.max_depth
                omega
              have hdr : rest.metaFold.max_depth ≤ (cur2.map fun _ => 0).length := by
                rw [hzlen]
                rw [metaFold_cons] at hd
                dsimp only at hd
                have := le_max_right c.get_metadata.max_depth rest.metaFold.max_depth
                omega
              obtain ⟨k2, cur3, hres, hlen3, hem3⟩ := hr0.1 (i + 1) (cur2.map fun _ => 0) b p ps
                hrwf hdr
                (roomFor_mono hroom (pathMaxF_rest_le name c rest))
                (by rw [hrz]; exact hemit)
              refine ⟨k2 + 1, cur3, ?_, by rw [hlen3, hzlen], ?_⟩
              · rw [hred]
                have : i + (k2 + 1) = i + 1 + k2 := by omega
                rw [this]
                exact hres
              · have : (Fields.fcons name c rest).drop (k2 + 1) = rest.drop k2 := by
                  simp [Fields.drop]
                rw [this]
                exact hem3
        · intro i tailc b hwf hd hroom hemit
          simp only [Fields.wfB, Bool.and_eq_true] at hwf
          obtain ⟨⟨⟨⟨hname, hns⟩, hdist⟩, hcwf⟩, hrwf⟩ := hwf
          have hcne : c.pathsN ≠ [] := ((wf_paths_facts).1 c hcwf).1
          have hnm : name ≠ [] := by
            cases name with
            | nil => simp [List.isEmpty] at hname
            | cons a as => simp
          have hname_le : name.length ≤ pathMaxF (.fcons name c rest) := pathMaxF_name hcne
          have hnl : 1 ≤ name.length := by
            cases name with
            | nil => exact absurd rfl hnm
            | cons a as => simp
          have hpm1 : 1 ≤ pathMaxF (.fcons name c rest) := le_trans hnl hname_le
          have hroom2 : b.data.length + (if b.data = [] then 0 else 1) +
              pathMaxF (.fcons name c rest) ≤ b.cap := by
            have hne : pathMaxF (.fcons name c rest) ≠ 0 := by omega
            simp only [roomFor, hne, if_neg, not_false_iff] at hroom
            omega
          have hps : (if b.data.length > 0 then b.pushList ['/'] else some b) =
              some ⟨b.cap, b.data ++ (if b.data = [] then [] else ['/'])⟩ :=
            sep_push b (by omega)
          have hsl : (if b.data = [] then ([] : Chars) else ['/']).length =
              (if b.data = [] then 0 else 1) := by
            by_cases hb : b.data = [] <;> simp [hb]
          have hp2 : BString.pushList ⟨b.cap, b.data ++ (if b.data = [] then [] else ['/'])⟩
              name = some ⟨b.cap, (b.data ++ (if b.data = [] then [] else ['/'])) ++ name⟩ := by
            refine pushList_some ?_
            simp only [List.length_append, hsl]
            omega
          set t2 : BString := ⟨b.cap, (b.data ++ (if b.data = [] then [] else ['/'])) ++ name⟩
            with ht2
          have ht2ne : t2.data ≠ [] := by
            intro hcon
            simp only [ht2] at hcon
            rcases List.append_eq_nil.mp hcon with ⟨_, h2⟩
            exact hnm h2
          have ht2len : t2.data.length = b.data.length + (if b.data = [] then 0 else 1) +
              name.length := by
            simp [ht2, hsl]
            omega
          have hroomc : roomFor (pathMax c) t2 := by
            by_cases hc0 : pathMax c = 0
            · simp only [roomFor, hc0, if_pos, add_zero]
              simp only [ht2len]
              omega
            · obtain ⟨qm, hqm, hqml⟩ := maxLen_attained hcne
              have hqml2 : pathLen qm = pathMax c := hqml
              have hqmne : qm ≠ [] := by
                intro hcon
                subst hcon
                simp [pathLen] at hqml2
                exact hc0 hqml2.symm
              have hfull := @pathMaxF_full name c rest qm hqm hqmne
              rw [hqml2] at hfull
              simp only [roomFor, hc0, if_neg, not_false_iff, ht2ne, ht2len]
              omega
          have hdc : c.get_metadata.max_depth ≤ tailc.length := by
            rw [metaFold_cons] at hd
            dsimp only at hd
            have := le_max_left c.get_metadata.max_depth rest.metaFold.max_depth
            omega
          rw [emitRec_fcons] at hemit
          rcases List.append_eq_nil.mp hemit with ⟨hmape, hrestp⟩
          have hce : c.emitN tailc = [] := List.map_eq_nil_iff.mp hmape
          obtain ⟨cur2, hcx, hclen⟩ := hPc.2 tailc t2 hcwf hdc hroomc hce
          have htr : BString.trunc t2 b.data.length = b := by
            simp only [BString.trunc, ht2, List.append_assoc]
            rw [List.take_left]
          have hred : recurseFlds (.fcons name c rest) i tailc b b.data.length =
              recurseFlds rest (i + 1) (cur2.map fun _ => 0)
                (BString.trunc t2 b.data.length) b.data.length := by
            simp only [recurseFlds, hps, hp2, hcx]
          rw [htr] at hred
          have hzlen : (cur2.map fun _ => 0).length = tailc.length := by simp [hclen]
          have hdr : rest.metaFold.max_depth ≤ (cur2.map fun _ => 0).length := by
            rw [hzlen]
            rw [metaFold_cons] at hd
            dsimp only at hd
            have := le_max_right c.get_metadata.max_depth rest.metaFold.max_depth
            omega
          have hrz : emitRec rest (cur2.map fun _ => 0) = rest.pathsF :=
            (zero_facts).2 rest _ (by simp) hdr
          obtain ⟨j, cur3, hres, hlen3⟩ := hr0.2 (i + 1) (cur2.map fun _ => 0) b
            hrwf hdr (roomFor_mono hroom (pathMaxF_rest_le name c rest))
            (by rw [hrz]; exact hrestp)
          refine ⟨j, cur3, ?_, by rw [hlen3, hzlen]⟩
          rw [hred]
          exact hres

theorem appFor_nil_topic (p : List Chars) : appFor [] p = pathChars p := by
  by_cases hp : p = []
  · subst hp
    simp [appFor, pathChars]
  · simp [appFor, hp]

theorem roomFor_fresh {m cap : Nat} (h : m ≤ cap) : roomFor m (⟨cap, []⟩ : BString) := by
  simp only [roomFor]
  split <;> simp <;> omega

theorem drainPaths_succ (fuel : Nat) (t : Node) (cur : List Nat) (cap : Nat) :
    drainPaths (fuel + 1) t cur cap =
      match t.recursePaths cur ⟨cap, []⟩ with
      | .panicked _ => none
      | .exhausted c2 _ => some ([], c2)
      | .yielded c2 b =>
          match drainPaths fuel t c2 cap with
          | some (rest, cf) => some (b.data :: rest, cf)
          | none => none := rfl

/-- Running the iterator to exhaustion from a cursor standing for `l`
collects exactly the rendered paths of `l`. -/
theorem drain_ok (t : Node) (hwf : t.wfB = true) :
    ∀ (l : List (List Chars)) (cur : List Nat) (cap : Nat),
      t.emitN cur = l → t.get_metadata.max_depth ≤ cur.length → pathMax t ≤ cap →
      ∃ cf, drainPaths (l.length + 1) t cur cap = some (l.map pathChars, cf) := by
  intro l
  induction l with
  | nil =>
      intro cur cap hemit hd hcap
      obtain ⟨cur2, hres, _⟩ :=
        ((step_facts).1 t).2 cur ⟨cap, []⟩ hwf hd (roomFor_fresh hcap) hemit
      exact ⟨cur2, by simp [drainPaths, hres]⟩
  | cons p ps ih =>
      intro cur cap hemit hd hcap
      obtain ⟨cur2, hres, hlen, hem⟩ :=
        ((step_facts).1 t).1 cur ⟨cap, []⟩ p ps hwf hd (roomFor_fresh hcap) hemit
      obtain ⟨cf, hrec⟩ := ih cur2 cap hem (by rw [hlen]; exact hd) hcap
      refine ⟨cf, ?_⟩
      show drainPaths (ps.length + 1 + 1) t cur cap = _
      rw [drainPaths_succ, hres]
      dsimp only
      rw [hrec]
      dsimp only
      rw [appFor_nil_topic]
      simp

/-! Parsing and splitting facts for enumerated paths. -/

theorem decVal : ∀ n : Nat, (decRep n).foldl (fun a c => a * 10 + (c.toNat - 48)) 0 = n := by
  intro n
  induction n using Nat.strong_induction_on with
  | _ n ih =>
      rw [decRep_eq]
      by_cases h10 : n < 10
      · simp only [h10, if_pos, List.foldl_cons, List.foldl_nil]
        rw [Nat.zero_mul]
        rw [digCh_toNat h10]
        omega
      · simp only [h10, if_neg, not_false_iff, List.foldl_append, List.foldl_cons,
          List.foldl_nil]
        rw [ih (n / 10) (Nat.div_lt_self (by omega) (by omega))]
        rw [digCh_toNat (Nat.mod_lt _ (by omega))]
        omega

theorem parseIndex_decRep (n : Nat) : parseIndex (decRep n) = some n := by
  have hne : decRep n ≠ [] := decRep_ne_nil n
  have hall : (decRep n).all (·.isDigit) = true := by
    rw [List.all_eq_true]
    exact decRep_all_digits n
  simp only [parseIndex, hne, hall, decVal, ne_eq, not_false_iff, true_and, if_pos]

theorem splitSlash_no_slash : ∀ s : Chars, (∀ ch ∈ s, ch ≠ '/') → splitSlash s = [s] := by
  intro s
  induction s with
  | nil => intro _; rfl
  | cons c rest ih =>
      intro h
      have hc : c ≠ '/' := h c (by simp)
      have hr := ih (fun ch hch => h ch (by simp [hch]))
      simp only [splitSlash, hc, if_neg, not_false_iff, hr]

theorem splitSlash_append : ∀ (s u : Chars), (∀ ch ∈ s, ch ≠ '/') →
    splitSlash (s ++ '/' :: u) = s :: splitSlash u := by
  intro s
  induction s with
  | nil =>
      intro u _
      simp [splitSlash]
  | cons c rest ih =>
      intro u h
      have hc : c ≠ '/' := h c (by simp)
      have hr := ih u (fun ch hch => h ch (by simp [hch]))
      simp only [List.cons_append, splitSlash, hc, if_neg, not_false_iff]
      rw [show rest.append ('/' :: u) = rest ++ '/' :: u from rfl, hr]

theorem splitSlash_pathChars : ∀ p : List Chars, p ≠ [] →
    (∀ seg ∈ p, ∀ ch ∈ seg, ch ≠ '/') → splitSlash (pathChars p) = p := by
  intro p
  induction p with
  | nil => intro h _; exact absurd rfl h
  | cons s r ih =>
      intro _ hseg
      cases r with
      | nil =>
          show splitSlash (pathChars [s]) = [s]
          have hps : pathChars [s] = s := rfl
          rw [hps]
          exact splitSlash_no_slash s (hseg s (by simp))
      | cons a as =>
          rw [pathChars_cons s (a :: as) (by simp)]
          rw [splitSlash_append s _ (hseg s (by simp))]
          rw [ih (by simp) (fun seg hs => hseg seg (by simp [hs]))]

theorem pathsF_mem_ne_nil : ∀ (fs : Fields) (p : List Chars), p ∈ fs.pathsF → p ≠ []
  | .fnil, p, h => by simp [Fields.pathsF] at h
  | .fcons name c rest, p, h => by
      simp only [Fields.pathsF, List.mem_append] at h
      rcases h with h | h
      · rcases List.mem_map.mp h with ⟨q, _, heq⟩
        simp [← heq]
      · exact pathsF_mem_ne_nil rest p h

theorem pathsF_head_mem : ∀ (fs : Fields) (nm : Chars) (q : List Chars),
    (nm :: q) ∈ fs.pathsF → nm ∈ fs.nameList
  | .fnil, nm, q, h => by simp [Fields.pathsF] at h
  | .fcons name c rest, nm, q, h => by
      simp only [Fields.pathsF, List.mem_append] at h
      rcases h with h | h
      · rcases List.mem_map.mp h with ⟨q2, _, heq⟩
        simp only [Fields.nameList, List.mem_cons]
        exact Or.inl (List.cons.injEq _ _ _ _ ▸ heq).1.symm
      · simp only [Fields.nameList, List.mem_cons]
        exact Or.inr (pathsF_head_mem rest nm q h)

/-- Every enumerated path reads back successfully (spec testable
property 1), provided every leaf value fits the buffer. -/
theorem get_paths_facts (sz : Nat) :
    (∀ t : Node, t.wfB = true → t.valsFit sz = true →
      ∀ p ∈ t.pathsN, ∃ v, t.string_get sz p = .ok v) ∧
    (∀ fs : Fields, fs.wfB = true → fs.valsFitF sz = true →
      ∀ (nm : Chars) (q : List Chars), (nm :: q) ∈ fs.pathsF →
        ∃ v, Fields.getIn sz fs nm q = .ok v) := by
  refine @mutInd _ _ ?_ ?_ ?_ ?_ ?_ ?_
  · intro v _ hfit p hp
    rw [pathsN_leaf] at hp
    simp at hp
    subst hp
    simp only [Node.valsFit, decide_eq_true_eq] at hfit
    exact ⟨v, by simp [Node.string_get, hfit]⟩
  · intro v _ hfit p hp
    rw [pathsN_atomic] at hp
    simp at hp
    subst hp
    simp only [Node.valsFit, decide_eq_true_eq] at hfit
    exact ⟨v, by simp [Node.string_get, hfit]⟩
  · intro n c ih hwf hfit p hp
    simp only [Node.wfB, Bool.and_eq_true, decide_eq_true_eq] at hwf
    simp only [Node.valsFit] at hfit
    rw [pathsN_array] at hp
    rw [mem_cmap] at hp
    obtain ⟨j, hj, hp⟩ := hp
    rcases List.mem_map.mp hp with ⟨q, hq, rfl⟩
    have hjn : j < n := by
      rw [List.mem_range'] at hj
      omega
    obtain ⟨v, hv⟩ := ih hwf.2 hfit q hq
    refine ⟨v, ?_⟩
    simp only [Node.string_get, parseIndex_decRep]
    have : ¬ j ≥ n := by omega
    simp [this, hv]
  · intro fs ih hwf hfit p hp
    simp only [Node.wfB, Bool.and_eq_true] at hwf
    simp only [Node.valsFit] at hfit
    rw [pathsN_record] at hp
    cases hp2 : p with
    | nil =>
        subst hp2
        exact absurd rfl (pathsF_mem_ne_nil fs [] hp)
    | cons nm q =>
        subst hp2
        obtain ⟨v, hv⟩ := ih hwf.2 hfit nm q hp
        exact ⟨v, by simp [Node.string_get, hv]⟩
  · intro _ _ nm q h
    simp [Fields.pathsF] at h
  · intro name c rest ihc ihr hwf hfit nm q h
    simp only [Fields.wfB, Bool.and_eq_true] at hwf
    simp only [Fields.valsFitF, Bool.and_eq_true] at hfit
    obtain ⟨⟨⟨⟨hname, hns⟩, hdist⟩, hcwf⟩, hrwf⟩ := hwf
    simp only [Fields.pathsF, List.mem_append] at h
    rcases h with h | h
    · rcases List.mem_map.mp h with ⟨q2, hq2, heq⟩
      obtain ⟨hnm, hq⟩ := List.cons.injEq _ _ _ _ ▸ heq
      subst hnm
      subst hq
      obtain ⟨v, hv⟩ := ihc hcwf hfit.1 q2 hq2
      exact ⟨v, by simp [Fields.getIn, hv]⟩
    · have hmem : nm ∈ rest.nameList := pathsF_head_mem rest nm q h
      have hne : nm ≠ name := by
        intro hcon
        subst hcon
        rw [show rest.nameList.contains nm = true from ?_] at hdist
        · simp at hdist
        · rw [List.contains_eq_any_beq, List.any_eq_true]
          exact ⟨nm, hmem, by simp⟩
      obtain ⟨v, hv⟩ := ihr hrwf hfit.2 nm q h
      refine ⟨v, ?_⟩
      simp only [Fields.getIn, hne, if_neg, not_false_iff]
      exact hv

/-! Republish drain correctness. -/

theorem repubLoop_succ (t : Node) (ns : Chars) (ts msgSz b : Nat) (cursor : List Nat) :
    repubLoop t ns ts msgSz (b + 1) cursor =
      match t.recursePaths cursor ⟨ts, []⟩ with
      | .panicked m => .panic m
      | .exhausted c2 _ => .ok [] c2 true
      | .yielded c2 topicB =>
          match t.string_get msgSz (splitSlash topicB.data) with
          | .error _ => .panic "settings get unwrap"
          | .ok v =>
              if ns.length + 1 + topicB.data.length ≤ ts then
                let pb : Pub := ⟨ns ++ '/' :: topicB.data, v, false⟩
                if b = 0 then .ok [pb] c2 false
                else
                  match repubLoop t ns ts msgSz b c2 with
                  | .ok ps c3 comp => .ok (pb :: ps) c3 comp
                  | .panic m => .panic m
              else .panic "prefixed topic write unwrap" := rfl

/-- The `for` loop of `handle_republish` publishes, in preorder, exactly
the first `min budget remaining` of the paths its cursor stands for,
reports completion precisely when the budget strictly exceeded the
remaining paths, and otherwise leaves a cursor standing for exactly the
unpublished suffix (nothing skipped, nothing repeated). -/
theorem repubLoop_ok (t : Node) (ns : Chars) (ts msgSz : Nat)
    (hwf : t.wfB = true) (hfit : t.valsFit msgSz = true)
    (hts : ns.length + 1 + pathMax t ≤ ts)
    (hne : ∀ p ∈ t.pathsN, p ≠ []) :
    ∀ (bgt : Nat) (l : List (List Chars)) (cur : List Nat),
      1 ≤ bgt → t.emitN cur = l → (∀ p ∈ l, p ∈ t.pathsN) →
      t.get_metadata.max_depth ≤ cur.length →
      ∃ cf, repubLoop t ns ts msgSz bgt cur =
          .ok ((l.take (min bgt l.length)).map (pubOf t ns msgSz)) cf
            (decide (l.length < bgt)) ∧
        cf.length = cur.length ∧
        (¬ l.length < bgt → t.emitN cf = l.drop bgt) := by
  intro bgt
  induction bgt with
  | zero => intro l cur h1; exact absurd h1 (by omega)
  | succ b ih =>
      intro l cur _ hemit hmem hd
      cases l with
      | nil =>
          obtain ⟨cur2, hres, hlen2⟩ :=
            ((step_facts).1 t).2 cur ⟨ts, []⟩ hwf hd (roomFor_fresh (by omega)) hemit
          refine ⟨cur2, ?_, hlen2, ?_⟩
          · rw [repubLoop_succ, hres]
            simp
          · intro h
            exact absurd (Nat.succ_pos b) h
      | cons p ps =>
          obtain ⟨cur2, hres, hlen2, hem2⟩ :=
            ((step_facts).1 t).1 cur ⟨ts, []⟩ p ps hwf hd (roomFor_fresh (by omega)) hemit
          have hres2 : t.recursePaths cur ⟨ts, []⟩ = .yielded cur2 ⟨ts, pathChars p⟩ := by
            simpa [appFor_nil_topic] using hres
          have hpmem : p ∈ t.pathsN := hmem p (by simp)
          have hpne : p ≠ [] := hne p hpmem
          have hsegs := ((wf_paths_facts).1 t hwf).2 p hpmem
          have hsplit : splitSlash (pathChars p) = p :=
            splitSlash_pathChars p hpne (fun seg hs => (hsegs seg hs).2)
          obtain ⟨v, hv⟩ := (get_paths_facts msgSz).1 t hwf hfit p hpmem
          have hplen : ns.length + 1 + (pathChars p).length ≤ ts := by
            rw [length_pathChars]
            have h2 : pathLen p ≤ pathMax t := maxLen_ge hpmem
            omega
          have hpub : pubOf t ns msgSz p = ⟨ns ++ '/' :: pathChars p, v, false⟩ := by
            simp [pubOf, hsplit, hv, Except.toOption]
          cases b with
          | zero =>
              refine ⟨cur2, ?_, hlen2, ?_⟩
              · rw [repubLoop_succ, hres2]
                dsimp only
                rw [hsplit, hv]
                dsimp only
                rw [if_pos hplen]
                have hmin : min 1 (p :: ps).length = 1 := by
                  simp only [List.length_cons]
                  omega
                have hdec : decide ((p :: ps).length < 1) = false := by
                  simp only [List.length_cons]
                  exact decide_eq_false (by omega)
                rw [hmin, hdec]
                simp [hpub]
              · intro _
                simpa using hem2
          | succ b2 =>
              obtain ⟨cf, hloop, hlenf, hdropf⟩ :=
                ih ps cur2 (by omega) hem2 (fun q hq => hmem q (by simp [hq]))
                  (by rw [hlen2]; exact hd)
              refine ⟨cf, ?_, by rw [hlenf, hlen2], ?_⟩
              · rw [repubLoop_succ, hres2]
                dsimp only
                rw [hsplit, hv]
                dsimp only
                rw [if_pos hplen]
                rw [hloop]
                dsimp only
                have hmin : min (b2 + 1 + 1) (p :: ps).length = min (b2 + 1) ps.length + 1 := by
                  simp only [List.length_cons]
                  omega
                have hdec : decide ((p :: ps).length < b2 + 1 + 1) =
                    decide (ps.length < b2 + 1) := by
                  refine decide_eq_decide.mpr ?_
                  simp only [List.length_cons]
                  omega
                rw [hmin, hdec, if_neg (Nat.succ_ne_zero b2)]
                simp [hpub]
              · intro h
                have h2 : ¬ ps.length < b2 + 1 := by
                  simp only [List.length_cons] at h
                  omega
                rw [List.drop_succ_cons]
                exact hdropf h2

/-- A whole republish pass over per-tick budgets delivers exactly the
first `min (total budget) remaining` of the paths the initial cursor
stands for, in preorder, each path once, and completes exactly when the
total budget strictly exceeded the remaining paths. -/
theorem runPass_ok (t : Node) (ns : Chars) (ts msgSz : Nat)
    (hwf : t.wfB = true) (hfit : t.valsFit msgSz = true)
    (hts : ns.length + 1 + pathMax t ≤ ts)
    (hmts : t.get_metadata.max_topic_size ≤ ts)
    (hne : ∀ p ∈ t.pathsN, p ≠ []) :
    ∀ (bs : List Nat) (l : List (List Chars)) (cur : List Nat),
      t.emitN cur = l → (∀ p ∈ l, p ∈ t.pathsN) →
      t.get_metadata.max_depth ≤ cur.length →
      ∃ cur2, runPass t ns ts msgSz bs cur =
          some ((l.take (min bs.sum l.length)).map (pubOf t ns msgSz), cur2,
            decide (l.length < bs.sum)) := by
  intro bs
  induction bs with
  | nil =>
      intro l cur _ _ _
      refine ⟨cur, ?_⟩
      have hdec : decide (l.length < List.sum []) = false :=
        decide_eq_false (by simp)
      rw [hdec]
      simp [runPass]
  | cons b bs ih =>
      intro l cur hemit hmem hd
      cases b with
      | zero =>
          obtain ⟨cur2, h2⟩ := ih l cur hemit hmem hd
          refine ⟨cur2, ?_⟩
          show (match handleRepublish t ns ts msgSz 0 cur with
            | .panic _ => none
            | .ok pubs c2 true => some (pubs, c2, true)
            | .ok pubs c2 false =>
                match runPass t ns ts msgSz bs c2 with
                | some (ps, c3, comp) => some (pubs ++ ps, c3, comp)
                | none => none) = _
          rw [show handleRepublish t ns ts msgSz 0 cur = .ok [] cur false from rfl]
          dsimp only
          rw [h2]
          simp
      | succ b2 =>
          have hcheck : t.get_metadata.max_depth ≤ cur.length ∧
              t.get_metadata.max_topic_size ≤ ts := ⟨hd, hmts⟩
          obtain ⟨cf, hloop, hlenf, hdropf⟩ :=
            repubLoop_ok t ns ts msgSz hwf hfit hts hne (b2 + 1) l cur (by omega) hemit hmem hd
          have hhr : handleRepublish t ns ts msgSz (b2 + 1) cur =
              repubLoop t ns ts msgSz (b2 + 1) cur := by
            rw [handleRepublish, if_neg (Nat.succ_ne_zero b2), if_pos hcheck]
          by_cases hc : l.length < b2 + 1
          · refine ⟨cf, ?_⟩
            rw [decide_eq_true hc] at hloop
            show (match handleRepublish t ns ts msgSz (b2 + 1) cur with
              | .panic _ => none
              | .ok pubs c2 true => some (pubs, c2, true)
              | .ok pubs c2 false =>
                  match runPass t ns ts msgSz bs c2 with
                  | some (ps, c3, comp) => some (pubs ++ ps, c3, comp)
                  | none => none) = _
            rw [hhr, hloop]
            dsimp only
            have e1 : min (b2 + 1) l.length = l.length := by omega
            have e2 : min (List.sum ((b2 + 1) :: bs)) l.length = l.length := by
              simp only [List.sum_cons]
              omega
            have e3 : decide (l.length < List.sum ((b2 + 1) :: bs)) = true := by
              simp only [List.sum_cons]
              exact decide_eq_true (by omega)
            rw [e1, e2, e3]
          · obtain ⟨cur2, h2⟩ := ih (l.drop (b2 + 1)) cf (hdropf hc)
              (fun q hq => hmem q (List.mem_of_mem_drop hq))
              (by rw [hlenf]; exact hd)
            refine ⟨cur2, ?_⟩
            rw [decide_eq_false hc] at hloop
            show (match handleRepublish t ns ts msgSz (b2 + 1) cur with
              | .panic _ => none
              | .ok pubs c2 true => some (pubs, c2, true)
              | .ok pubs c2 false =>
                  match runPass t ns ts msgSz bs c2 with
                  | some (ps, c3, comp) => some (pubs ++ ps, c3, comp)
                  | none => none) = _
            rw [hhr, hloop]
            dsimp only
            rw [h2]
            dsimp only
            simp only [List.length_drop, List.sum_cons]
            have e1 : min (b2 + 1) l.length = b2 + 1 := by omega
            have e2 : min (b2 + 1 + bs.sum) l.length =
                b2 + 1 + min bs.sum (l.length - (b2 + 1)) := by omega
            have e4 : decide (l.length - (b2 + 1) < bs.sum) =
                decide (l.length < b2 + 1 + bs.sum) := by
              refine decide_eq_decide.mpr ?_
              omega
            have e5 : l.take (b2 + 1 + min bs.sum (l.length - (b2 + 1))) =
                l.take (b2 + 1) ++ (l.drop (b2 + 1)).take (min bs.sum (l.length - (b2 + 1))) :=
              List.take_add l (b2 + 1) (min bs.sum (l.length - (b2 + 1)))
            rw [e1, e4, e2, e5, List.map_append]

/-! Session state machine trace invariants. -/

theorem tickStep_otherErr (s : SmState) (c ao so tmo rd : Bool) (e : Nat) :
    tickStep s ⟨c, ao, so, tmo, rd, .otherErr e⟩ = tickStep s ⟨c, ao, so, tmo, rd, .okPoll⟩ :=
  rfl

theorem step_flags (s : SmState) (a : Act) (fa fs : Bool)
    (ha : sessionOkS s = true → fa = true) (hs : subbedS s = true → fs = true) :
    (sessionOkS (actStep s a).1 = true → (actStep s a).2.foldl aliveStep fa = true) ∧
    (subbedS (actStep s a).1 = true → (actStep s a).2.foldl subStep fs = true) := by
  rcases a with ⟨c, ao, so, tmo, rd, pl⟩ | _
  · show (sessionOkS (tickStep s ⟨c, ao, so, tmo, rd, pl⟩).1 = true →
        (tickStep s ⟨c, ao, so, tmo, rd, pl⟩).2.foldl aliveStep fa = true) ∧
      (subbedS (tickStep s ⟨c, ao, so, tmo, rd, pl⟩).1 = true →
        (tickStep s ⟨c, ao, so, tmo, rd, pl⟩).2.foldl subStep fs = true)
    rcases pl with _ | _ | e
    · revert ha hs
      revert c ao so tmo rd fa fs
      cases s <;> decide
    · revert ha hs
      revert c ao so tmo rd fa fs
      cases s <;> decide
    · rw [tickStep_otherErr]
      revert ha hs
      revert c ao so tmo rd fa fs
      cases s <;> decide
  · revert ha hs
    revert fa fs
    cases s <;> decide

theorem exec_flags : ∀ (acts : List Act) (s : SmState) (fa fs : Bool),
    (sessionOkS s = true → fa = true) → (subbedS s = true → fs = true) →
    (sessionOkS (execState s acts) = true → (opStream s acts).foldl aliveStep fa = true) ∧
    (subbedS (execState s acts) = true → (opStream s acts).foldl subStep fs = true) := by
  intro acts
  induction acts with
  | nil =>
      intro s fa fs ha hs
      exact ⟨ha, hs⟩
  | cons a rest ih =>
      intro s fa fs ha hs
      have hstep := step_flags s a fa fs ha hs
      have hrec := ih (actStep s a).1 ((actStep s a).2.foldl aliveStep fa)
        ((actStep s a).2.foldl subStep fs) hstep.1 hstep.2
      simpa [execState, opStream, List.foldl_append] using hrec

theorem subAttempt_state (s : SmState) (inp : TickIn) (ok : Bool)
    (h : Op.subAttempt ok ∈ (tickStep s inp).2) : s = .PendingSubscribe := by
  obtain ⟨c, ao, so, tmo, rd, pl⟩ := inp
  revert h
  rcases pl with _ | _ | e
  · revert c ao so tmo rd ok
    cases s <;> decide
  · revert c ao so tmo rd ok
    cases s <;> decide
  · rw [tickStep_otherErr]
    revert c ao so tmo rd ok
    cases s <;> decide

theorem drain_state (s : SmState) (inp : TickIn)
    (h : Op.drain ∈ (tickStep s inp).2) : s = .RepublishingSettings := by
  obtain ⟨c, ao, so, tmo, rd, pl⟩ := inp
  revert h
  rcases pl with _ | _ | e
  · revert c ao so tmo rd
    cases s <;> decide
  · revert c ao so tmo rd
    cases s <;> decide
  · rw [tickStep_otherErr]
    revert c ao so tmo rd
    cases s <;> decide

/-! Claim theorems. -/

/-- C6: in every execution of the session from the initial state (any
interleaving of ticks with arbitrary environments and
`force_republish` calls), a subscription is attempted only when a
liveness publish has succeeded with no reset after it, a republish
drain runs only when a subscription has succeeded with no reset after
it, and `StartRepublish` (hence `force_republish`) is rejected in
`Initial`, `ConnectedToBroker` and `PendingSubscribe`. -/
theorem claim_C6_session_ordering (acts : List Act) (inp : TickIn) :
    ((∃ ok, Op.subAttempt ok ∈ (tickStep (execState .Initial acts) inp).2) →
      aliveSince (opStream .Initial acts) = true) ∧
    (Op.drain ∈ (tickStep (execState .Initial acts) inp).2 →
      subSince (opStream .Initial acts) = true) ∧
    smProcess .Initial .StartRepublish = none ∧
    smProcess .ConnectedToBroker .StartRepublish = none ∧
    smProcess .PendingSubscribe .StartRepublish = none := by
  have hflags := exec_flags acts .Initial false false (by simp [sessionOkS]) (by simp [subbedS])
  refine ⟨?_, ?_, rfl, rfl, rfl⟩
  · rintro ⟨ok, hmem⟩
    have hst := subAttempt_state _ inp ok hmem
    refine hflags.1 ?_
    rw [hst]
    rfl
  · intro hmem
    have hst := drain_state _ inp hmem
    refine hflags.2 ?_
    rw [hst]
    rfl

/-- Witness for C6 on the trace connect, announce alive, subscribe,
start republish: the subscription attempt of the third tick happens
with `aliveSince` set, the drain of the fifth tick with `subSince`
set. -/
theorem claim_C6_session_ordering_witness :
    aliveSince (opStream .Initial [Act.tick okTick, Act.tick okTick]) = true ∧
    subSince (opStream .Initial
      [Act.tick okTick, Act.tick okTick, Act.tick okTick, Act.tick okTick]) = true := by
  constructor
  · exact (claim_C6_session_ordering [Act.tick okTick, Act.tick okTick] okTick).1
      ⟨true, by decide⟩
  · exact (claim_C6_session_ordering
      [Act.tick okTick, Act.tick okTick, Act.tick okTick, Act.tick okTick] okTick).2.1
      (by decide)


/-- C8: a session-reset poll error is consumed by the tick: it fires
`Reset` (every state handles `Reset` by returning to `Initial`) and the
tick returns `Ok(false)`; any other transport error from poll is
propagated unchanged to the caller. -/
theorem claim_C8_transport_errors (st : SmState) (u : Bool) (e : Nat) :
    handleTraffic st u .sessionReset = (.Initial, .ok false) ∧
    handleTraffic st u (.otherErr e) = (st, .error e) ∧
    smProcess st .Reset = some .Initial := by
  refine ⟨?_, rfl, ?_⟩ <;> cases st <;> rfl

/-- C9: `handled_update` can return `Ok(true)` while the live settings
are unchanged: the updated flag is set as soon as `string_set` succeeds
on the cloned candidate, so a validator that rejects the message (and
does not promote the candidate) still yields `true`.  Witnessed with
live settings `0`, a `string_set` that produces candidate `1`, and a
rejecting validator. -/
theorem claim_C9_updated_without_change :
    (processMessage (fun (_ : Nat) _ _ => Except.ok 1)
        (fun _ old _ => (old, some ['n', 'o']))
        ['p'] 64 0 ['p', '/', 'v'] ['7'] none ['p', '/', 'l']).updated = true ∧
    (processMessage (fun (_ : Nat) _ _ => Except.ok 1)
        (fun _ old _ => (old, some ['n', 'o']))
        ['p'] 64 0 ['p', '/', 'v'] ['7'] none ['p', '/', 'l']).settings = 0 := by
  constructor <;> rfl

/-- C4: when `string_set` on the cloned candidate fails, the live
settings are returned unchanged, the updated flag stays `false`, and
an error response is published to the reply topic (default
`<prefix>/log`) whose reason is the `{:?}`-formatted failed result, or
the fixed `"Configuration Error"` text when that formatting would
overflow the message buffer. -/
theorem claim_C4_failed_set_atomic {α : Type} (sset : α → List Chars → Chars → Except Error α)
    (handler : Chars → α → α → α × Option Chars) (ns : Chars) (respCap : Nat) (live : α)
    (topic payload : Chars) (replyTo : Option Chars) (logTopic : Chars) (tail : Chars) (e : Error)
    (hstrip : stripPre ns topic = some tail)
    (hfail : sset live (splitSlash (if tail ≠ [] then tail.drop 1 else tail)) payload =
      .error e) :
    processMessage sset handler ns respCap live topic payload replyTo logTopic =
      ⟨live, false,
        some (replyTo.getD logTopic,
          .errResp
            (if (debugSetErr e).length ≤ respCap then debugSetErr e
              else "Configuration Error".toList))⟩ := by
  have hfail2 : sset live (splitSlash (if tail = [] then tail else tail.tail)) payload =
      .error e := by
    cases tail <;> simpa using hfail
  simp [processMessage, hstrip, procPath, hfail2, reasonOf]

/-- Witness for C4 at a concrete input. -/
theorem claim_C4_failed_set_atomic_witness :
    processMessage (fun (_ : Nat) _ _ => Except.error Error.BadIndex)
        (fun _ old _ => (old, none)) ['p'] 64 7 ['p', '/', 'v'] ['x'] none ['p', '/', 'l'] =
      ⟨7, false, some (['p', '/', 'l'], .errResp "Err(BadIndex)".toList)⟩ := by
  have h := claim_C4_failed_set_atomic (fun (_ : Nat) _ _ => Except.error Error.BadIndex)
    (fun _ old _ => (old, none)) ['p'] 64 7 ['p', '/', 'v'] ['x'] none ['p', '/', 'l']
    ['/', 'v'] Error.BadIndex (by decide) rfl
  rw [h]
  decide

/-- C7 fails as stated: the code removes the first character of the
topic tail unconditionally (`&path[1..]`), not "only its leading
`/`".  For prefix `p` and topic `pX` the tail is `X` and the claim's
path would be `X`, but the path handed to `string_set` is the root
path (the settings recorded by a pass-through handler show
`string_set` received the segments of `""`, not of `"X"`). -/
theorem claim_C7_counterexample :
    (processMessage (fun (_ : List Chars) segs _ => Except.ok segs)
        (fun _ _ cand => (cand, none)) ['p'] 64 [] ['p', 'X'] ['v'] none ['p', '/', 'l']).settings =
      splitSlash [] ∧
    splitSlash [] ≠ splitSlash ['X'] := by
  constructor <;> decide

/-- C7, amended: a message whose topic does not start with
`<prefix>/settings` is dropped (settings untouched, no update reported,
nothing published); otherwise the tail after the prefix loses its first
character unconditionally (which is its leading `/` for every topic
matching the `<prefix>/settings/#` subscription) and the remainder is
the path handed to `string_set`, the empty tail addressing the root. -/
theorem claim_C7_topic_to_path {α : Type} (sset : α → List Chars → Chars → Except Error α)
    (handler : Chars → α → α → α × Option Chars) (ns : Chars) (respCap : Nat) (live : α)
    (topic payload : Chars) (replyTo : Option Chars) (logTopic : Chars) :
    (stripPre ns topic = none →
      processMessage sset handler ns respCap live topic payload replyTo logTopic =
        ⟨live, false, none⟩) ∧
    (∀ tail, stripPre ns topic = some tail →
      processMessage sset handler ns respCap live topic payload replyTo logTopic =
        procPath sset handler respCap live (tail.drop 1) payload (replyTo.getD logTopic)) := by
  constructor
  · intro h
    simp [processMessage, h]
  · intro tail h
    cases tail with
    | nil => simp [processMessage, h]
    | cons c r => simp [processMessage, h]

/-- Witness for C7 (amended) at concrete inputs: a non-matching topic
is dropped, and a matching topic's path is the tail minus its first
character. -/
theorem claim_C7_topic_to_path_witness :
    (processMessage (fun (_ : Nat) _ _ => Except.ok 1) (fun _ _ cand => (cand, none))
        ['p'] 64 0 ['q', '/', 'v'] ['7'] none ['p', '/', 'l'] = ⟨0, false, none⟩) ∧
    (processMessage (fun (_ : Nat) _ _ => Except.ok 1) (fun _ _ cand => (cand, none))
        ['p'] 64 0 ['p', '/', 'v'] ['7'] none ['p', '/', 'l'] =
      procPath (fun (_ : Nat) _ _ => Except.ok 1) (fun _ _ cand => (cand, none)) 64 0 ['v'] ['7']
        ['p', '/', 'l']) := by
  constructor
  · exact (claim_C7_topic_to_path (fun (_ : Nat) _ _ => Except.ok 1)
      (fun _ _ cand => (cand, none)) ['p'] 64 0 ['q', '/', 'v'] ['7'] none ['p', '/', 'l']).1
      (by decide)
  · exact (claim_C7_topic_to_path (fun (_ : Nat) _ _ => Except.ok 1)
      (fun _ _ cand => (cand, none)) ['p'] 64 0 ['p', '/', 'v'] ['7'] none ['p', '/', 'l']).2
      ['/', 'v'] (by decide)

/-- C3: for an array `[T; N]` with element type set as one unit,
`string_set` and `string_get` with next segment `s` fail with
`BadIndex` exactly when `s` does not parse as a base-ten non-negative
integer or the parsed index is at least `N`; any segment containing a
non-digit character (negative signs and whitespace included) fails the
parse. -/
theorem claim_C3_array_bad_index (dec : Chars → Option Chars) (n : Nat) (cv : Chars) (s : Chars)
    (rest : List Chars) (v : Chars) (bufSize : Nat) :
    ((Node.array n (.leaf cv)).string_set dec (s :: rest) v = .error .BadIndex ↔
        ∀ i, parseIndex s = some i → n ≤ i) ∧
    ((Node.array n (.leaf cv)).string_get bufSize (s :: rest) = .error .BadIndex ↔
        ∀ i, parseIndex s = some i → n ≤ i) ∧
    ((∃ ch ∈ s, ch.isDigit = false) → parseIndex s = none) := by
  refine ⟨?_, ?_, ?_⟩
  · cases hp : parseIndex s with
    | none =>
        simp only [Node.string_set, hp]
        exact ⟨fun _ i hi => (by cases hi), fun _ => trivial⟩
    | some i =>
        simp only [Node.string_set, hp]
        by_cases hin : i ≥ n
        · simp only [hin, if_pos]
          exact ⟨fun _ j hj => (by cases hj; exact hin), fun _ => trivial⟩
        · simp only [hin, if_neg, not_false_iff]
          constructor
          · intro hbad
            rcases hr : rest with _ | ⟨a, r⟩ <;> rcases hdv : dec v with _ | nv <;>
              simp [Node.string_set, hr, hdv, Except.map] at hbad
          · intro hall
            exact absurd (hall i rfl) (by omega)
  · cases hp : parseIndex s with
    | none =>
        simp only [Node.string_get, hp]
        exact ⟨fun _ i hi => (by cases hi), fun _ => trivial⟩
    | some i =>
        simp only [Node.string_get, hp]
        by_cases hin : i ≥ n
        · simp only [hin, if_pos]
          exact ⟨fun _ j hj => (by cases hj; exact hin), fun _ => trivial⟩
        · simp only [hin, if_neg, not_false_iff]
          constructor
          · intro hbad
            rcases hr : rest with _ | ⟨a, r⟩ <;>
              simp [Node.string_get, hr] at hbad <;> revert hbad <;> split <;> simp
          · intro hall
            exact absurd (hall i rfl) (by omega)
  · rintro ⟨ch, hch, hd⟩
    have hall : s.all (·.isDigit) = false := by
      rw [List.all_eq_false]
      exact ⟨ch, hch, by simp [hd]⟩
    simp [parseIndex, hall]

/-- Witness for C3: segment `"-1"` contains a non-digit, fails the
parse, and is rejected with `BadIndex` on a three-element array. -/
theorem claim_C3_array_bad_index_witness :
    parseIndex ['-', '1'] = none ∧
    (Node.array 3 (.leaf [])).string_set some (['-', '1'] :: []) [] = .error .BadIndex := by
  have h := claim_C3_array_bad_index some 3 [] ['-', '1'] [] [] 0
  refine ⟨h.2.2 ⟨'-', by decide, by decide⟩, ?_⟩
  refine h.1.mpr ?_
  intro i hi
  rw [h.2.2 ⟨'-', by decide, by decide⟩] at hi
  cases hi

/-- C2 fails on the code: for `[T; 1]` with a leaf element,
`get_metadata` reports `max_topic_size = 0` and `max_depth = 2` (the
digit-count loop yields `0` for index `N - 1 = 0`), yet running
`recurse_paths` with a cursor of length `2 ≥ max_depth` and a topic
buffer of capacity `0 ≥ max_topic_size` reaches the
`unreachable!("Topic buffer too short")` branch, i.e. panics. -/
theorem claim_C2_precondition_panic :
    oneElemArray.get_metadata = ⟨0, 2⟩ ∧
    oneElemArray.recursePaths [0, 0] ⟨0, []⟩ = .panicked "Topic buffer too short" := by
  constructor
  · simp [oneElemArray, Node.get_metadata, num_digits]
  · simp [oneElemArray, Node.recursePaths, recurseArr, BString.pushList, decRep, digCh]

/-- C1, amended: for every settings tree in which each array node has
at least two elements, the enumerator (from a fresh cursor of length
at least `max_depth`, topic capacity at least `max_topic_size`) yields
exactly the preorder path list, and every enumerated path `p` satisfies
`max_topic_size ≥ len(p)` and `max_depth ≥ depth(p) + 1`. -/
theorem claim_C1_metadata_bounds (t : Node) (L cap : Nat) (hwf : t.wfB = true)
    (h2 : t.arrMin 2 = true) (hL : t.get_metadata.max_depth ≤ L)
    (hcap : t.get_metadata.max_topic_size ≤ cap) :
    (∃ cf, drainPaths (t.pathsN.length + 1) t (List.replicate L 0) cap =
        some (t.pathsN.map pathChars, cf)) ∧
    ∀ p ∈ t.pathsN, (pathChars p).length ≤ t.get_metadata.max_topic_size ∧
      p.length + 1 ≤ t.get_metadata.max_depth := by
  have hpm : pathMax t ≤ t.get_metadata.max_topic_size := (mts_facts).1 t hwf h2
  constructor
  · refine drain_ok t hwf t.pathsN _ cap ?_ ?_ (le_trans hpm hcap)
    · refine (zero_facts).1 t _ ?_ ?_
      · intro x hx
        exact List.eq_of_mem_replicate hx
      · simp [hL]
    · simp [hL]
  · intro p hp
    constructor
    · rw [length_pathChars]
      exact le_trans (maxLen_ge hp) hpm
    · have := (depth_facts).1 t p hp
      omega

/-- Witness for C1 (amended) on the S4 tree `struct S { data: [T; 2] }`
(metadata `(6, 3)`). -/
theorem claim_C1_metadata_bounds_witness :
    (∃ cf, drainPaths (s4Tree.pathsN.length + 1) s4Tree (List.replicate 8 0) 6 =
        some (s4Tree.pathsN.map pathChars, cf)) ∧
    ∀ p ∈ s4Tree.pathsN, (pathChars p).length ≤ s4Tree.get_metadata.max_topic_size ∧
      p.length + 1 ≤ s4Tree.get_metadata.max_depth :=
  claim_C1_metadata_bounds s4Tree 8 6
    (by simp [s4Tree, Node.wfB, Fields.wfB, Fields.nameList])
    (by simp [s4Tree, Node.arrMin, Fields.arrMinF])
    (by simp [s4Tree, Node.get_metadata, Fields.metaFold])
    (by simp [s4Tree, Node.get_metadata, Fields.metaFold, num_digits])

/-- C1 fails as stated: on `[T; 1]` with a leaf element the enumerator
(run with ample buffers) yields the path `"0"` of length 1, while
`get_metadata` reports `max_topic_size = 0`. -/
theorem claim_C1_counterexample :
    drainPaths 2 oneElemArray [0, 0] 8 = some ([['0']], [1, 0]) ∧
    oneElemArray.get_metadata.max_topic_size = 0 ∧
    ¬((['0'] : Chars).length ≤ oneElemArray.get_metadata.max_topic_size) := by
  refine ⟨?_, ?_, ?_⟩
  · simp [drainPaths, oneElemArray, Node.recursePaths, recurseArr, BString.pushList, decRep,
      digCh, BString.trunc]
  · simp [oneElemArray, Node.get_metadata, num_digits]
  · simp [oneElemArray, Node.get_metadata, num_digits]

/-- C10: the republish drain unwraps the result of reading each
enumerated path into the `MESSAGE_SIZE` staging buffer; on a settings
struct whose single leaf serializes to 3 bytes, a republish tick with
`MESSAGE_SIZE = 2` panics (the leaf's `get` returns `BufferTooSmall`)
instead of returning or reporting an error. -/
theorem claim_C10_republish_get_unwrap :
    handleRepublish bigLeafTree ['p'] 64 2 3 [0, 0] = .panic "settings get unwrap" ∧
    bigLeafTree.string_get 2 (splitSlash ['f']) = .error .BufferTooSmall := by
  constructor
  · simp [handleRepublish, bigLeafTree, Node.get_metadata, Fields.metaFold, repubLoop,
      Node.recursePaths, recurseFlds, Fields.drop, BString.pushList, Node.string_get,
      Fields.getIn, splitSlash]
  · simp [bigLeafTree, Node.string_get, Fields.getIn, splitSlash]


/-- C5: during a republish pass (per-tick transport publish budgets
`bs`, cursor initially all-zero and at least `max_depth` deep), leaf
paths are published to `<ns>/<path>` (`ns` standing for the
`<prefix>/settings` namespace) non-retained, in the enumerator's
deterministic preorder, each path at most once: the pass delivers
exactly the first `min (sum of budgets) (number of paths)` expected
publishes — so a tick that runs out of budget leaves the cursor
standing for exactly the unpublished suffix, and the next tick resumes
there with nothing skipped and nothing repeated — the pass reports
completion exactly when the total budget strictly exceeded the number
of paths, and `RepublishComplete` moves the state machine from
`RepublishingSettings` to `Active`.  Hypotheses: well-formed tree,
every leaf value fits the staging buffer, the topic capacity covers
namespace + separator + longest path as well as the reported
`max_topic_size`, and the root is not itself a single leaf (every
enumerated path is nonempty). -/
theorem claim_C5_republish (t : Node) (ns : Chars) (ts msgSz : Nat)
    (bs : List Nat) (cur : List Nat)
    (hwf : t.wfB = true) (hfit : t.valsFit msgSz = true)
    (hts : ns.length + 1 + pathMax t ≤ ts)
    (hmts : t.get_metadata.max_topic_size ≤ ts)
    (hne : ∀ p ∈ t.pathsN, p ≠ [])
    (hz : ∀ x ∈ cur, x = 0) (hd : t.get_metadata.max_depth ≤ cur.length) :
    (∃ cur2, runPass t ns ts msgSz bs cur =
        some ((expectedPubs t ns msgSz).take
            (min bs.sum (expectedPubs t ns msgSz).length),
          cur2, decide ((expectedPubs t ns msgSz).length < bs.sum))) ∧
    (∀ pb ∈ expectedPubs t ns msgSz, pb.retained = false) ∧
    smProcess .RepublishingSettings .RepublishComplete = some .Active := by
  refine ⟨?_, ?_, rfl⟩
  · have hemit : t.emitN cur = t.pathsN := (zero_facts).1 t cur hz hd
    obtain ⟨cur2, h⟩ :=
      runPass_ok t ns ts msgSz hwf hfit hts hmts hne bs t.pathsN cur hemit (fun p hp => hp) hd
    refine ⟨cur2, ?_⟩
    rw [h]
    simp [expectedPubs, List.map_take]
  · intro pb hpb
    rcases List.mem_map.mp (by simpa [expectedPubs] using hpb) with ⟨p, _, h⟩
    rw [← h]
    rfl

/-- Witness for C5: the spec's S4 shape (`struct S { data: [f32; 2] }`,
leaf values one byte), namespace `"p"`, topic capacity 20, staging
buffer 4 bytes, a single tick with budget 3, fresh cursor `[0,0,0]`. -/
theorem claim_C5_republish_witness :
    s4Tree.wfB = true ∧
    ((∃ cur2, runPass s4Tree ['p'] 20 4 [3] [0, 0, 0] =
        some ((expectedPubs s4Tree ['p'] 4).take
            (min (List.sum [3]) (expectedPubs s4Tree ['p'] 4).length),
          cur2, decide ((expectedPubs s4Tree ['p'] 4).length < List.sum [3]))) ∧
      (∀ pb ∈ expectedPubs s4Tree ['p'] 4, pb.retained = false) ∧
      smProcess .RepublishingSettings .RepublishComplete = some .Active) :=
  ⟨by simp [s4Tree, Node.wfB, Fields.wfB, Fields.nameList],
    claim_C5_republish s4Tree ['p'] 20 4 [3] [0, 0, 0]
      (by simp [s4Tree, Node.wfB, Fields.wfB, Fields.nameList])
      (by simp [s4Tree, Node.valsFit, Fields.valsFitF])
      (by simp [pathMax, s4Tree, Node.pathsN, Fields.pathsF, cmap, maxLen, pathLen, decRep,
        digCh])
      (by simp [s4Tree, Node.get_metadata, Fields.metaFold, num_digits])
      (by
        intro p hp
        simp [s4Tree, Node.pathsN, Fields.pathsF, cmap, List.range'] at hp
        rcases hp with rfl | rfl <;> simp)
      (by decide)
      (by simp [s4Tree, Node.get_metadata, Fields.metaFold, num_digits])⟩

end Miniconf
